import Mathlib

/-!
Verification of the `perfume` repository's offset-allocation protocol.

Shallow embedding conventions:
* Rust byte strings (`&[u8]`, `Bytes`, the bytes of a `String`) are `List Nat`,
  each element a byte value.  Rust `&str` values are the byte lists of their
  UTF-8 encoding; `str` comparison is byte-lexicographic, which the embedding
  mirrors directly.
* Partial operations (slice indexing that can panic, `unwrap`) return
  `Option`; `none` models a panic/abort.
* `usize` arithmetic is `Nat`; where overflow is observable
  (`str::parse::<usize>` rejects values ≥ 2^64 on a 64-bit target) the bound
  appears explicitly.
* Fallible connector calls return `Except IoError`.
-/

namespace Perfume

/-- Byte strings: each element is one byte (0–255 in intended use). -/
abbrev Bytes := List Nat

/-- UTF-8 continuation byte test (`0x80 ≤ b < 0xC0`). -/
def isContByte (b : Nat) : Bool := 0x80 ≤ b && b < 0xC0

/-- Fueled UTF-8 decoder: returns the code points of a byte string, or `none`
if the bytes are not valid UTF-8.  Models Rust `String::from_utf8` /
`str::from_utf8` validation (used by `BufRead::read_line`).  One unit of fuel
is spent per decoded character; fuel ≥ length always suffices. -/
def utf8DecodeAux : Nat → Bytes → Option (List Nat)
  | _, [] => some []
  | 0, _ :: _ => none
  | fuel+1, b :: rest =>
    if b < 0x80 then
      (utf8DecodeAux fuel rest).map (fun cs => b :: cs)
    else if b < 0xC2 then
      none
    else if b < 0xE0 then
      match rest with
      | b1 :: rest1 =>
        if isContByte b1 then
          let cp := (b - 0xC0) * 0x40 + (b1 - 0x80)
          (utf8DecodeAux fuel rest1).map (fun cs => cp :: cs)
        else none
      | [] => none
    else if b < 0xF0 then
      match rest with
      | b1 :: b2 :: rest2 =>
        if isContByte b1 && isContByte b2 then
          let cp := (b - 0xE0) * 0x1000 + (b1 - 0x80) * 0x40 + (b2 - 0x80)
          if 0x800 ≤ cp && ¬ (0xD800 ≤ cp && cp ≤ 0xDFFF) then
            (utf8DecodeAux fuel rest2).map (fun cs => cp :: cs)
          else none
        else none
      | _ => none
    else if b < 0xF5 then
      match rest with
      | b1 :: b2 :: b3 :: rest3 =>
        if isContByte b1 && isContByte b2 && isContByte b3 then
          let cp := (b - 0xF0) * 0x40000 + (b1 - 0x80) * 0x1000 +
            (b2 - 0x80) * 0x40 + (b3 - 0x80)
          if 0x10000 ≤ cp && cp ≤ 0x10FFFF then
            (utf8DecodeAux fuel rest3).map (fun cs => cp :: cs)
          else none
        else none
      | _ => none
    else none

/-- UTF-8 decode of a byte string into code points (`none` = invalid UTF-8). -/
def utf8Decode (bs : Bytes) : Option (List Nat) := utf8DecodeAux bs.length bs

/-- Code-point/byte test mirroring Rust `char::is_ascii_hexdigit` /
`u8::is_ascii_hexdigit`: `0-9`, `A-F`, `a-f`. -/
def isAsciiHexDigit (c : Nat) : Bool :=
  (0x30 ≤ c && c ≤ 0x39) || (0x41 ≤ c && c ≤ 0x46) || (0x61 ≤ c && c ≤ 0x66)

/-- Byte map of Rust `str::make_ascii_lowercase`: ASCII `A-Z` ↦ `a-z`,
every other byte unchanged (on a UTF-8 string this is exactly a byte map,
since continuation bytes are ≥ 0x80). -/
def toLowerByte (b : Nat) : Nat := if 0x41 ≤ b && b ≤ 0x5A then b + 0x20 else b

/-- Embeds `HexString::<N>::from(&[u8])` (src/hex_string.rs, non-nightly
branch): decode the bytes as UTF-8 (`String::from_utf8`, panic = `none`),
assert every char `is_ascii_hexdigit`, assert the byte length is `N`, then
lowercase in place.  The result is the byte string of the stored text. -/
def HexString.fromBytes (N : Nat) (value : Bytes) : Option Bytes :=
  match utf8Decode value with
  | none => none
  | some chars =>
    if chars.all isAsciiHexDigit then
      if value.length = N then some (value.map toLowerByte) else none
    else none

/-! ### Byte-lexicographic comparison (Rust `Ord for str`) -/

/-- Three-way byte-lexicographic comparison, mirroring `Ord for str`
(which compares the UTF-8 bytes lexicographically). -/
def strCmp : Bytes → Bytes → Ordering
  | [], [] => .eq
  | [], _ :: _ => .lt
  | _ :: _, [] => .gt
  | a :: as, b :: bs =>
    if a < b then .lt else if b < a then .gt else strCmp as bs

/-- Strict byte-lexicographic order on byte strings. -/
def strLt (a b : Bytes) : Prop := strCmp a b = .lt

instance (a b : Bytes) : Decidable (strLt a b) := by
  unfold strLt; infer_instance

/-! ### Decimal formatting (`format!("{n}")`, `format!("{n:>5}")`) -/

/-- Fueled decimal digit expansion of a `Nat`, most significant digit first,
as ASCII bytes.  Mirrors the decimal `Display` of Rust unsigned integers.
Fuel ≥ n + 1 always suffices (each step divides by 10). -/
def natDigitsAux : Nat → Nat → Bytes
  | 0, _ => []
  | fuel+1, n => if n < 10 then [0x30 + n] else natDigitsAux fuel (n / 10) ++ [0x30 + n % 10]

/-- Decimal ASCII representation of a `Nat` (`format!("{n}")`). -/
def natDigitBytes (n : Nat) : Bytes := natDigitsAux (n + 1) n

/-- Right-justification to width `w` with spaces (`format!("{s:>w}")`);
no truncation when `s` is longer than `w`. -/
def rightJust (w : Nat) (s : Bytes) : Bytes := List.replicate (w - s.length) 0x20 ++ s

/-- One ledger line body, without the newline:
`format!("{digest} {next_offset:>5}")` from `digest_offset`. -/
def formatLine (digest : Bytes) (off : Nat) : Bytes :=
  digest ++ 0x20 :: rightJust 5 (natDigitBytes off)

/-! ### Whitespace trim and `str::parse::<usize>` -/

/-- ASCII whitespace test.  Rust `str::trim` trims by `char::is_whitespace`;
on the ASCII text of ledger lines the two agree (non-ASCII Unicode
whitespace is not modelled). -/
def isAsciiWhitespace (b : Nat) : Bool :=
  b = 0x20 || b = 0x09 || b = 0x0A || b = 0x0B || b = 0x0C || b = 0x0D

/-- Both-ends whitespace trim (`str::trim` on ASCII text). -/
def trimBytes (s : Bytes) : Bytes :=
  ((s.dropWhile isAsciiWhitespace).reverse.dropWhile isAsciiWhitespace).reverse

/-- ASCII decimal digit test. -/
def isDigitByte (b : Nat) : Bool := 0x30 ≤ b && b ≤ 0x39

/-- Value of an ASCII digit string, most significant first. -/
def digitsVal (s : Bytes) : Nat := s.foldl (fun acc b => acc * 10 + (b - 0x30)) 0

/-- Exclusive upper bound of `usize` (modelled as the common 64-bit target). -/
def USIZE_BOUND : Nat := 2 ^ 64

/-- Embeds `str::parse::<usize>()`: optional leading `+`, then one or more
ASCII digits, error (`none`) on empty input, any other byte, or overflow
past `usize::MAX`. -/
def parseUsize (s : Bytes) : Option Nat :=
  let digits := if s.head? = some 0x2B then s.tail else s
  if !digits.isEmpty && digits.all isDigitByte then
    if digitsVal digits < USIZE_BOUND then some (digitsVal digits) else none
  else none

/-! ### Line splitting (`BufRead::lines` over the fetched blob) -/

/-- Accumulator-based splitting of a byte stream at `\n` (byte `0x0A`),
newline not included in the produced lines; a final segment is produced
only if non-empty (so a trailing newline adds no empty line).  This is the
chunking performed by `BufRead::read_line` inside `BufRead::lines`. -/
def rawLinesAux : Bytes → Bytes → List Bytes
  | [], acc => if acc.isEmpty then [] else [acc.reverse]
  | b :: rest, acc =>
    if b = 0x0A then acc.reverse :: rawLinesAux rest []
    else rawLinesAux rest (b :: acc)

/-- Raw line chunks of a blob (each without its terminating newline). -/
def rawLines (bs : Bytes) : List Bytes := rawLinesAux bs []

/-- Drop one trailing carriage return, as `BufRead::lines` does after
removing the newline. -/
def dropFinalCr (l : Bytes) : Bytes := if l.getLast? = some 0x0D then l.dropLast else l

/-- Keep lines while they are valid UTF-8, stopping at the first invalid
one: models `lines().map_while(|l| l.ok())`, where each `read_line`
validates the bytes it read and `map_while` stops at the first `Err`. -/
def linesUpToErr : List Bytes → List Bytes
  | [] => []
  | l :: ls =>
    if (utf8Decode l).isSome then dropFinalCr l :: linesUpToErr ls else []

/-- Embeds `stored_bytes.lines().map_while(|l| l.ok()).collect()` from
`digest_offset`. -/
def rustLines (blob : Bytes) : List Bytes := linesUpToErr (rawLines blob)

/-! ### Byte-slice operations with Rust panic semantics -/

/-- Rust `str::is_char_boundary`: true at 0 and at the length, false past
the end, and inside the string true iff the byte at the position is not a
UTF-8 continuation byte. -/
def isCharBoundary (s : Bytes) (n : Nat) : Bool :=
  n = 0 || n = s.length || (decide (n < s.length) && !isContByte (s.getD n 0))

/-- Byte slice `&s[..n]` on a `str`: panics (`none`) unless `n` is a char
boundary within bounds. -/
def sliceTo (s : Bytes) (n : Nat) : Option Bytes :=
  if isCharBoundary s n then some (s.take n) else none

/-- Byte slice `&s[n..]` on a `str`: panics (`none`) unless `n` is a char
boundary within bounds. -/
def sliceFrom (s : Bytes) (n : Nat) : Option Bytes :=
  if isCharBoundary s n then some (s.drop n) else none

/-- Option-valued `List.mapM`: `none` if `f` fails anywhere (the eager
`collect()` of the sliced search keys). -/
def mapOpt (f : α → Option β) : List α → Option (List β)
  | [] => some []
  | a :: as =>
    match f a, mapOpt f as with
    | some b, some bs => some (b :: bs)
    | _, _ => none

/-! ### Binary search (`slice::binary_search`) -/

/-- Fueled embedding of the `slice::binary_search_by` loop: maintain
`left < right`, probe `mid = left + (right - left) / 2`, narrow to the
half indicated by the comparison, succeed with `.ok mid` on `Equal`, and
finish with `.error left` (the insertion index) when the window closes.
Fuel ≥ `right - left + 1` always suffices since the window shrinks each
step. -/
def bsAux : Nat → List Bytes → Bytes → Nat → Nat → Except Nat Nat
  | 0, _, _, left, _ => .error left
  | fuel+1, l, t, left, right =>
    if left < right then
      let size := right - left
      let mid := left + size / 2
      match strCmp (l.getD mid []) t with
      | .lt => bsAux fuel l t (mid + 1) right
      | .gt => bsAux fuel l t left mid
      | .eq => .ok mid
    else .error left

/-- `search_lines.binary_search(&digest)`: `.ok i` = found at `i`,
`.error i` = insertion index `i`. -/
def binarySearch (l : List Bytes) (t : Bytes) : Except Nat Nat :=
  bsAux (l.length + 1) l t 0 l.length

/-- Rust `Vec::insert(index, x)`: panics (`none`) when `index > len`. -/
def insertAtChecked (i : Nat) (x : α) (l : List α) : Option (List α) :=
  if i ≤ l.length then some (l.take i ++ x :: l.drop i) else none

/-- Rust `Vec::join("\n")`: line bodies separated by single newlines. -/
def joinNl : List Bytes → Bytes
  | [] => []
  | [l] => l
  | l :: l2 :: ls => l ++ 0x0A :: joinNl (l2 :: ls)

/-! ### The storage layer (src/identity/storage.rs) -/

/-- Modelled from the spec: the crate-root constant `STORAGE_KEY_LENGTH`
is not under src/ (only its uses are); the spec fixes K = 3. -/
def STORAGE_KEY_LENGTH : Nat := 3

/-- Modelled from the spec: the crate-root constant `STORAGE_DIGEST_LENGTH`
is not under src/ (only its uses are); the spec fixes D = 61, matching the
68-byte line documented on `RemoteStore`. -/
def STORAGE_DIGEST_LENGTH : Nat := 61

/-- The `Storage` record: `key` and `digest` hold the text of the two
`HexString` fields (their `as_str` views as bytes). -/
structure Storage where
  key : Bytes
  digest : Bytes
deriving DecidableEq

/-- Connector failure (`std::io::Error`), identified by its message. -/
structure IoError where
  msg : Bytes
deriving DecidableEq

/-- Modelled from the spec: the crate-root `Error` enum is not under src/.
The spec's §7 taxonomy lists `InvalidEncoding`, `StorageFailure` (wrapping
a propagated connector error), `PopulationExhausted` and
`ConfigurationError`; `digest_offset` converts `std::io::Error` into it
via `?` / `.into()`, which per the spec wraps the connector error
unchanged as `StorageFailure`. -/
inductive Error where
  | InvalidEncoding : Error
  | StorageFailure : IoError → Error
  | PopulationExhausted : Error
  | ConfigurationError : Error
deriving DecidableEq

/-- The `ConnectionBridge` trait: fetch/store a blob by textual key.  The
state type `σ` stands for whatever the adapter mutates; `put` yields the
successor state on success. -/
structure ConnectionBridge (σ : Type) where
  get : σ → Bytes → Except IoError (Option Bytes)
  put : σ → Bytes → Bytes → Except IoError σ

/-- Embeds `RemoteStore::digest_offset` (src/identity/storage.rs, lines
77–126), the sync and async versions being textually identical around the
bridge calls.  Steps, in source order: fetch the blob under
`storage.key.as_str()` (note `_domain` is unused in the source too);
split into lines; slice every line at the digest width to build
`search_lines`; binary-search for the digest; on a hit parse the stored
offset out of the found line; on a miss insert
`format!("{digest} {next_offset:>5}")` at the insertion index, re-join
with newlines plus a trailing newline, and `put` the result.  `none`
models a panic (slice out of bounds / `unwrap` on a failed parse /
`Vec::insert` out of range). -/
def digest_offset {σ : Type} (self : ConnectionBridge σ) (st : σ) (_domain : Bytes)
    (storage : Storage) : Option (Except Error (Nat × σ)) :=
  let digest := storage.digest
  match self.get st storage.key with
  | .error e => some (.error (Error.StorageFailure e))
  | .ok stored_bytes =>
    let lines : List Bytes :=
      match stored_bytes with
      | none => []
      | some bs => rustLines bs
    match mapOpt (fun s => sliceTo s digest.length) lines with
    | none => none
    | some search_lines =>
      match binarySearch search_lines digest with
      | .ok found_at =>
        match lines[found_at]? with
        | none => none
        | some found_line =>
          match sliceFrom found_line (digest.length + 1) with
          | none => none
          | some rest =>
            match parseUsize (trimBytes rest) with
            | none => none
            | some found_offset => some (.ok (found_offset, st))
      | .error insert_at =>
        let next_offset := lines.length
        match insertAtChecked insert_at (formatLine digest next_offset) lines with
        | none => none
        | some new_lines =>
          match self.put st storage.key (joinNl new_lines ++ [0x0A]) with
          | .error e => some (.error (Error.StorageFailure e))
          | .ok st2 => some (.ok (next_offset, st2))

/-- Proof-layer view of the hit branch of `digest_offset`: index the found
line, slice past the digest and the space, trim-parse the offset.
Definitionally a slice of `digest_offset`. -/
def hitPath {σ : Type} (st : σ) (digest : Bytes) (lines : List Bytes) (found_at : Nat) :
    Option (Except Error (Nat × σ)) :=
  match lines[found_at]? with
  | none => none
  | some found_line =>
    match sliceFrom found_line (digest.length + 1) with
    | none => none
    | some rest =>
      match parseUsize (trimBytes rest) with
      | none => none
      | some found_offset => some (.ok (found_offset, st))

/-- Proof-layer view of the miss branch of `digest_offset`: insert the new
line at the insertion index, re-join and store.  Definitionally a slice of
`digest_offset`. -/
def missPath {σ : Type} (put1 : Bytes → Except IoError σ) (digest : Bytes)
    (lines : List Bytes) (insert_at : Nat) : Option (Except Error (Nat × σ)) :=
  match insertAtChecked insert_at (formatLine digest lines.length) lines with
  | none => none
  | some new_lines =>
    match put1 (joinNl new_lines ++ [0x0A]) with
    | .error e => some (.error (Error.StorageFailure e))
    | .ok st2 => some (.ok (lines.length, st2))

/-- Proof-layer view of `digest_offset` after the search-key slicing:
dispatch on the binary search result. -/
def afterSearch {σ : Type} (put1 : Bytes → Except IoError σ) (st : σ) (digest : Bytes)
    (lines search_lines : List Bytes) : Option (Except Error (Nat × σ)) :=
  match binarySearch search_lines digest with
  | .ok found_at => hitPath st digest lines found_at
  | .error insert_at => missPath put1 digest lines insert_at

/-- Proof-layer view of the part of `digest_offset` after a successful
fetch, with the store operation abstracted to `put1` (the bridge's `put`
applied to the same state and key).  Definitionally equal to the
corresponding slice of `digest_offset`; see `digest_offset_eq_core`. -/
def digest_offset_core {σ : Type} (put1 : Bytes → Except IoError σ) (st : σ)
    (digest : Bytes) (lines : List Bytes) : Option (Except Error (Nat × σ)) :=
  match mapOpt (fun s => sliceTo s digest.length) lines with
  | none => none
  | some search_lines => afterSearch put1 st digest lines search_lines

/-! ### Connector models -/

/-- View of the tests' `MockBridge` (an infallible in-memory map) at a
single key: `digest_offset` reads and writes exactly one key per call, so
for statements about one partition the state is just that key's blob. -/
def oneKeyBridge : ConnectionBridge (Option Bytes) where
  get s _ := .ok s
  put _ _ body := .ok (some body)

/-- Lookup in an association-list store (first binding wins). -/
def mockGet (m : List (Bytes × Bytes)) (k : Bytes) : Option Bytes :=
  (m.find? (fun e => decide (e.1 = k))).map Prod.snd

/-- The tests' `MockBridge`: an in-memory key→blob map with upsert `put`,
modelled as an association list where the newest binding shadows. -/
def mockBridge : ConnectionBridge (List (Bytes × Bytes)) where
  get m k := .ok (mockGet m k)
  put m k body := .ok ((k, body) :: m)

/-- Single-key infallible store instrumented with a `put` counter, to
observe whether a call writes. -/
def observedBridge : ConnectionBridge (Option Bytes × Nat) where
  get s _ := .ok s.1
  put s _ body := .ok (some body, s.2 + 1)

/-- Single-key store state with injectable `get`/`put` failures. -/
structure FaultyState where
  blob : Option Bytes
  getErr : Option IoError
  putErr : Option IoError
deriving DecidableEq

/-- Single-key store whose operations fail exactly when the corresponding
fault is injected; a failed `put` leaves the blob untouched. -/
def faultyBridge : ConnectionBridge FaultyState where
  get s _ := match s.getErr with
    | some e => .error e
    | none => .ok s.blob
  put s _ body := match s.putErr with
    | some e => .error e
    | none => .ok ⟨some body, s.getErr, s.putErr⟩

/-- Probing connector whose `get` fails with the requested key as the
error message: the error reveals which key `digest_offset` fetches. -/
def keyProbeBridge : ConnectionBridge Unit where
  get _ k := .error ⟨k⟩
  put _ _ _ := .error ⟨[]⟩

/-! ### Ledger abstraction -/

/-- Lines of a possibly-absent blob (a missing blob is an empty ledger). -/
def linesOfState (s : Option Bytes) : List Bytes :=
  match s with
  | none => []
  | some b => rustLines b

/-- Valid fixed-width hex text of width `n` (the invariant of a
constructed `HexString<n>`: `n` bytes, all ASCII hex digits). -/
def ValidHex (n : Nat) (s : Bytes) : Prop :=
  s.length = n ∧ s.all isAsciiHexDigit = true

/-- A `Storage` record built from a keyed-hash output: both fields are
valid fixed-width hex. -/
def ValidStorage (stg : Storage) : Prop :=
  ValidHex STORAGE_KEY_LENGTH stg.key ∧ ValidHex STORAGE_DIGEST_LENGTH stg.digest

/-- Rendered line body of one ledger entry. -/
def entryLine (e : Bytes × Nat) : Bytes := formatLine e.1 e.2

/-- Rendered blob of a ledger: line bodies joined by newlines plus a
trailing newline, exactly as the miss path of `digest_offset` writes it. -/
def renderLedger (entries : List (Bytes × Nat)) : Bytes :=
  joinNl (entries.map entryLine) ++ [0x0A]

/-- Well-formed ledger state: the blob parses into the rendered lines of
`entries`, whose digests are strictly sorted valid hex and whose offsets
fit `usize`. -/
def LedgerState (s : Option Bytes) (entries : List (Bytes × Nat)) : Prop :=
  linesOfState s = entries.map entryLine ∧
  (entries.map Prod.fst).Pairwise strLt ∧
  (∀ e ∈ entries, ValidHex STORAGE_DIGEST_LENGTH e.1) ∧
  (∀ e ∈ entries, e.2 < USIZE_BOUND)

/-- Densely allocated offsets: the stored offsets are a permutation of
`0, …, len-1`. -/
def DenseOffsets (entries : List (Bytes × Nat)) : Prop :=
  (entries.map Prod.snd).Perm (List.range entries.length)

/-- Blob states produced by the protocol: start absent, then any number of
successful `digest_offset` calls for valid records. -/
inductive Reachable : Option Bytes → Prop where
  | init : Reachable none
  | step (s s2 : Option Bytes) (dom : Bytes) (stg : Storage) (off : Nat) :
      Reachable s → ValidStorage stg →
      digest_offset oneKeyBridge s dom stg = some (.ok (off, s2)) → Reachable s2

/-- Run a sequence of allocations for digests `ds` under one fixed
`(domain, key)`, collecting the returned offsets; `none` if any call
panics or fails. -/
def runAllocs (dom key : Bytes) : Option Bytes → List Bytes → Option (List Nat × Option Bytes)
  | s, [] => some ([], s)
  | s, d :: ds =>
    match digest_offset oneKeyBridge s dom ⟨key, d⟩ with
    | some (.ok (off, s2)) => (runAllocs dom key s2 ds).map (fun r => (off :: r.1, r.2))
    | _ => none

/-- Fold digests into the list of distinct digests in first-seen order. -/
def seenFold (seen : List Bytes) (ds : List Bytes) : List Bytes :=
  ds.foldl (fun acc d => if d ∈ acc then acc else acc ++ [d]) seen

/-- Distinct digests of a history, in first-seen order. -/
def firstSeen (ds : List Bytes) : List Bytes := seenFold [] ds

/-- Index of the first occurrence of `d`. -/
def idxOfB (d : Bytes) : List Bytes → Nat
  | [] => 0
  | x :: xs => if x = d then 0 else idxOfB d xs + 1

/-- Entries of a ledger that recorded the distinct digests `seen` in
order: digest `seen[o]` is stored with offset `o`. -/
def EntriesFor (seen : List Bytes) (entries : List (Bytes × Nat)) : Prop :=
  entries.length = seen.length ∧
  ∀ p : Bytes × Nat, p ∈ entries ↔ ∃ h : p.2 < seen.length, seen.get ⟨p.2, h⟩ = p.1

/-- Well-formedness of one fetched ledger line exactly as claimed: at
least 62 bytes, and the bytes after the digest-plus-space trim to a
(non-empty, all-digit) decimal numeral. -/
def ClaimWFLine (line : Bytes) : Prop :=
  62 ≤ line.length ∧ trimBytes (line.drop 62) ≠ [] ∧
    (trimBytes (line.drop 62)).all isDigitByte = true

/-- Amended line well-formedness: additionally the slice positions 61 and
62 are char boundaries and the numeral's value fits `usize`. -/
def AmendedWFLine (line : Bytes) : Prop :=
  ClaimWFLine line ∧ isCharBoundary line 61 = true ∧ isCharBoundary line 62 = true ∧
    digitsVal (trimBytes (line.drop 62)) < USIZE_BOUND

deriving instance DecidableEq for Except

instance (n : Nat) (s : Bytes) : Decidable (ValidHex n s) := by
  unfold ValidHex; infer_instance

instance (stg : Storage) : Decidable (ValidStorage stg) := by
  unfold ValidStorage; infer_instance

instance (s : Option Bytes) (entries : List (Bytes × Nat)) : Decidable (LedgerState s entries) := by
  unfold LedgerState; infer_instance

instance (entries : List (Bytes × Nat)) : Decidable (DenseOffsets entries) := by
  unfold DenseOffsets; infer_instance

instance (line : Bytes) : Decidable (ClaimWFLine line) := by
  unfold ClaimWFLine; infer_instance

instance (line : Bytes) : Decidable (AmendedWFLine line) := by
  unfold AmendedWFLine; infer_instance

/-! ### Concrete data for witnesses -/

/-- The 61-character digest `"a" * 61`. -/
def aDigest : Bytes := List.replicate 61 0x61

/-- The 61-character digest `"b" * 61`. -/
def bDigest : Bytes := List.replicate 61 0x62

/-- A partition key `"aaa"`. -/
def exKey : Bytes := [0x61, 0x61, 0x61]

/-- A blob whose single line satisfies the claimed line well-formedness
but stores the numeral `2^64`, one past `usize::MAX`. -/
def overflowBlob : Bytes := aDigest ++ 0x20 :: natDigitBytes (2 ^ 64) ++ [0x0A]

/-! ## Theorems -/

theorem strCmp_self (a : Bytes) : strCmp a a = .eq := by
  induction a with
  | nil => rfl
  | cons x xs ih => simp [strCmp, ih]

theorem strCmp_eq_iff {a b : Bytes} : strCmp a b = .eq ↔ a = b := by
  constructor
  · intro h
    induction a generalizing b with
    | nil => cases b with
      | nil => rfl
      | cons y ys => simp [strCmp] at h
    | cons x xs ih =>
      cases b with
      | nil => simp [strCmp] at h
      | cons y ys =>
        simp only [strCmp] at h
        by_cases hxy : x < y
        · simp [hxy] at h
        · by_cases hyx : y < x
          · simp [hxy, hyx] at h
          · have hx : x = y := Nat.le_antisymm (Nat.le_of_not_lt hyx) (Nat.le_of_not_lt hxy)
            simp only [hxy, if_false, hyx] at h
            rw [hx, ih h]
  · intro h; subst h; exact strCmp_self a

theorem strCmp_gt_iff {a b : Bytes} : strCmp a b = .gt ↔ strCmp b a = .lt := by
  induction a generalizing b with
  | nil => cases b <;> simp [strCmp]
  | cons x xs ih =>
    cases b with
    | nil => simp [strCmp]
    | cons y ys =>
      simp only [strCmp]
      by_cases hxy : x < y
      · have : ¬ y < x := Nat.lt_asymm hxy
        simp [hxy, this]
      · by_cases hyx : y < x
        · simp [hxy, hyx]
        · simp [hxy, hyx, ih]

theorem strLt_trans {a b c : Bytes} (hab : strLt a b) (hbc : strLt b c) : strLt a c := by
  unfold strLt at *
  induction a generalizing b c with
  | nil =>
    cases c with
    | nil =>
      cases b with
      | nil => exact hbc
      | cons y ys => simp [strCmp] at hbc
    | cons z zs => simp [strCmp]
  | cons x xs ih =>
    cases b with
    | nil => simp [strCmp] at hab
    | cons y ys =>
      cases c with
      | nil => simp [strCmp] at hbc
      | cons z zs =>
        simp only [strCmp] at hab hbc ⊢
        by_cases hxy : x < y
        · -- x < y; need x < z or go structural
          by_cases hyz : y < z
          · have hxz : x < z := Nat.lt_trans hxy hyz
            simp [hxz]
          · by_cases hzy : z < y
            · simp [hyz, hzy] at hbc
            · have hyzeq : y = z := Nat.le_antisymm (Nat.le_of_not_lt hzy) (Nat.le_of_not_lt hyz)
              subst hyzeq
              simp [hxy]
        · by_cases hyx : y < x
          · simp [hxy, hyx] at hab
          · have hxyeq : x = y := Nat.le_antisymm (Nat.le_of_not_lt hyx) (Nat.le_of_not_lt hxy)
            subst hxyeq
            rw [if_neg hxy, if_neg hyx] at hab
            by_cases hyz : x < z
            · simp [hyz]
            · by_cases hzy : z < x
              · simp [hyz, hzy] at hbc
              · have hxzeq : x = z := Nat.le_antisymm (Nat.le_of_not_lt hzy) (Nat.le_of_not_lt hyz)
                subst hxzeq
                rw [if_neg hyz, if_neg hzy] at hbc
                rw [if_neg hyz, if_neg hzy]
                exact ih hab hbc

theorem strLt_irrefl (a : Bytes) : ¬ strLt a a := by
  unfold strLt; rw [strCmp_self]; intro h; cases h

/-! ### UTF-8 lemmas -/

theorem hexDigit_lt (c : Nat) (h : isAsciiHexDigit c = true) : c < 0x80 := by
  simp [isAsciiHexDigit] at h
  omega

theorem utf8DecodeAux_ascii (fuel : Nat) (bs : Bytes) (hfuel : bs.length ≤ fuel)
    (h : ∀ b ∈ bs, b < 0x80) : utf8DecodeAux fuel bs = some bs := by
  induction fuel generalizing bs with
  | zero =>
    cases bs with
    | nil => rfl
    | cons b rest => simp at hfuel
  | succ fuel ih =>
    cases bs with
    | nil => rfl
    | cons b rest =>
      have hb : b < 0x80 := h b (List.mem_cons_self b rest)
      simp only [utf8DecodeAux, if_pos hb]
      rw [ih rest (by simpa using Nat.le_of_succ_le_succ hfuel)
        (fun x hx => h x (List.mem_cons_of_mem b hx))]
      rfl

theorem utf8Decode_ascii (bs : Bytes) (h : ∀ b ∈ bs, b < 0x80) : utf8Decode bs = some bs :=
  utf8DecodeAux_ascii bs.length bs le_rfl h

theorem utf8DecodeAux_hex (fuel : Nat) (bs cps : List Nat)
    (hdec : utf8DecodeAux fuel bs = some cps)
    (hhex : ∀ c ∈ cps, isAsciiHexDigit c = true) : bs = cps := by
  induction fuel generalizing bs cps with
  | zero =>
    cases bs with
    | nil => cases hdec; rfl
    | cons b rest => simp [utf8DecodeAux] at hdec
  | succ fuel ih =>
    cases bs with
    | nil => cases hdec; rfl
    | cons b rest =>
      simp only [utf8DecodeAux] at hdec
      by_cases hb : b < 0x80
      · rw [if_pos hb] at hdec
        cases hrec : utf8DecodeAux fuel rest with
        | none => rw [hrec] at hdec; simp at hdec
        | some cs =>
          rw [hrec] at hdec
          cases hdec
          have := ih rest cs hrec (fun c hc => hhex c (List.mem_cons_of_mem b hc))
          rw [this]
      · rw [if_neg hb] at hdec
        by_cases hb2 : b < 0xC2
        · rw [if_pos hb2] at hdec; cases hdec
        · rw [if_neg hb2] at hdec
          by_cases hb3 : b < 0xE0
          · rw [if_pos hb3] at hdec
            cases rest with
            | nil => cases hdec
            | cons b1 rest1 =>
              by_cases hc1 : isContByte b1 = true
              · simp only [hc1, if_true] at hdec
                cases hrec : utf8DecodeAux fuel rest1 with
                | none => rw [hrec] at hdec; cases hdec
                | some cs =>
                  rw [hrec] at hdec
                  cases hdec
                  have := hexDigit_lt _ (hhex _ (List.mem_cons_self _ _))
                  omega
              · simp only [hc1, if_false] at hdec; cases hdec
          · rw [if_neg hb3] at hdec
            by_cases hb4 : b < 0xF0
            · rw [if_pos hb4] at hdec
              cases rest with
              | nil => cases hdec
              | cons b1 rest1 =>
                cases rest1 with
                | nil => cases hdec
                | cons b2 rest2 =>
                  by_cases hc1 : (isContByte b1 && isContByte b2) = true
                  · simp only [hc1, if_true] at hdec
                    split at hdec
                    · rename_i hr
                      cases hrec : utf8DecodeAux fuel rest2 with
                      | none => rw [hrec] at hdec; cases hdec
                      | some cs =>
                        rw [hrec] at hdec
                        cases hdec
                        have hlt := hexDigit_lt _ (hhex _ (List.mem_cons_self _ _))
                        simp at hr
                        omega
                    · cases hdec
                  · simp only [hc1, if_false] at hdec; cases hdec
            · rw [if_neg hb4] at hdec
              by_cases hb5 : b < 0xF5
              · rw [if_pos hb5] at hdec
                cases rest with
                | nil => cases hdec
                | cons b1 rest1 =>
                  cases rest1 with
                  | nil => cases hdec
                  | cons b2 rest2 =>
                    cases rest2 with
                    | nil => cases hdec
                    | cons b3 rest3 =>
                      by_cases hc1 : (isContByte b1 && isContByte b2 && isContByte b3) = true
                      · simp only [hc1, if_true] at hdec
                        split at hdec
                        · rename_i hr
                          cases hrec : utf8DecodeAux fuel rest3 with
                          | none => rw [hrec] at hdec; cases hdec
                          | some cs =>
                            rw [hrec] at hdec
                            cases hdec
                            have hlt := hexDigit_lt _ (hhex _ (List.mem_cons_self _ _))
                            simp at hr
                            omega
                        · cases hdec
                      · simp only [hc1, if_false] at hdec; cases hdec
              · rw [if_neg hb5] at hdec; cases hdec

theorem hexFrom_eq_none (N : Nat) (value : Bytes) (h : utf8Decode value = none) :
    HexString.fromBytes N value = none := by
  unfold HexString.fromBytes
  rw [h]

theorem hexFrom_eq_some (N : Nat) (value : Bytes) (chars : List Nat)
    (h : utf8Decode value = some chars) :
    HexString.fromBytes N value =
      if chars.all isAsciiHexDigit then
        if value.length = N then some (value.map toLowerByte) else none
      else none := by
  unfold HexString.fromBytes
  rw [h]

/-- C8: for every byte slice, `HexString<N>` construction succeeds iff the
slice has length exactly N and every byte is an ASCII hex digit; on
success the stored text is the input normalized to lowercase.  Failure
(`none`) is the invalid-encoding condition, and no partial value exists. -/
theorem hexstring_fromBytes_contract (N : Nat) (value : Bytes) :
    ((HexString.fromBytes N value).isSome ↔
      value.length = N ∧ value.all isAsciiHexDigit = true) ∧
    ∀ r, HexString.fromBytes N value = some r → r = value.map toLowerByte := by
  constructor
  · constructor
    · intro h
      cases hdec : utf8Decode value with
      | none => rw [hexFrom_eq_none N value hdec] at h; simp at h
      | some chars =>
        rw [hexFrom_eq_some N value chars hdec] at h
        by_cases hhex : chars.all isAsciiHexDigit = true
        · rw [if_pos hhex] at h
          by_cases hlen : value.length = N
          · have hbc : value = chars := utf8DecodeAux_hex _ _ _ hdec (by
              intro c hc
              exact List.all_eq_true.mp hhex c hc)
            exact ⟨hlen, by rw [hbc]; exact hhex⟩
          · rw [if_neg hlen] at h; simp at h
        · rw [if_neg hhex] at h; simp at h
    · rintro ⟨hlen, hhex⟩
      have hascii : ∀ b ∈ value, b < 0x80 := fun b hb =>
        hexDigit_lt b (List.all_eq_true.mp hhex b hb)
      rw [hexFrom_eq_some N value value (utf8Decode_ascii value hascii)]
      rw [if_pos hhex, if_pos hlen]
      rfl
  · intro r hr
    cases hdec : utf8Decode value with
    | none => rw [hexFrom_eq_none N value hdec] at hr; cases hr
    | some chars =>
      rw [hexFrom_eq_some N value chars hdec] at hr
      by_cases hhex : chars.all isAsciiHexDigit = true
      · rw [if_pos hhex] at hr
        by_cases hlen : value.length = N
        · rw [if_pos hlen] at hr; cases hr; rfl
        · rw [if_neg hlen] at hr; cases hr
      · rw [if_neg hhex] at hr; cases hr

/-- Witness for C8 at the repository's own test vector `b"AB1"`. -/
theorem hexstring_fromBytes_contract_witness :
    (HexString.fromBytes 3 [0x41, 0x42, 0x31]).isSome ∧
    [0x61, 0x62, 0x31] = [0x41, 0x42, 0x31].map toLowerByte := by
  constructor
  · exact (hexstring_fromBytes_contract 3 [0x41, 0x42, 0x31]).1.mpr (by decide)
  · exact (hexstring_fromBytes_contract 3 [0x41, 0x42, 0x31]).2 [0x61, 0x62, 0x31] (by decide)

/-! ### Decimal digits, trim and parse lemmas -/

theorem digitsVal_append_one (xs : Bytes) (y : Nat) :
    digitsVal (xs ++ [y]) = digitsVal xs * 10 + (y - 0x30) := by
  unfold digitsVal
  rw [List.foldl_append]
  rfl

theorem natDigitsAux_spec (fuel : Nat) : ∀ n, n < fuel →
    natDigitsAux fuel n ≠ [] ∧ (natDigitsAux fuel n).all isDigitByte = true ∧
    digitsVal (natDigitsAux fuel n) = n ∧
    ∀ k, 1 ≤ k → n < 10 ^ k → (natDigitsAux fuel n).length ≤ k := by
  induction fuel with
  | zero => intro n hn; omega
  | succ fuel ih =>
    intro n hn
    by_cases h10 : n < 10
    · refine ⟨by simp [natDigitsAux, h10], ?_, ?_, ?_⟩
      · simp [natDigitsAux, h10, isDigitByte]
        omega
      · simp [natDigitsAux, h10, digitsVal]
      · intro k hk _
        simp [natDigitsAux, h10]
        omega
    · have hdivlt : n / 10 < n := Nat.div_lt_self (by omega) (by omega)
      have hdiv : n / 10 < fuel := by omega
      obtain ⟨hne, hall, hval, hlen⟩ := ih (n / 10) hdiv
      have heq : natDigitsAux (fuel + 1) n = natDigitsAux fuel (n / 10) ++ [0x30 + n % 10] := by
        simp [natDigitsAux, h10]
      refine ⟨by simp [heq], ?_, ?_, ?_⟩
      · rw [heq, List.all_append, hall]
        simp [isDigitByte]
        omega
      · rw [heq, digitsVal_append_one, hval]
        omega
      · intro k hk hnk
        have hk2 : 2 ≤ k := by
          by_contra hlt
          have hk1 : k = 1 := by omega
          subst hk1
          simp at hnk
          omega
        have : n / 10 < 10 ^ (k - 1) := by
          have h1 : 10 ^ k = 10 ^ (k - 1) * 10 := by
            rw [← pow_succ]
            congr 1
            omega
          rw [Nat.div_lt_iff_lt_mul (by omega)]
          omega
        have := hlen (k - 1) (by omega) this
        rw [heq]
        simp only [List.length_append, List.length_cons, List.length_nil]
        omega

theorem natDigitBytes_ne_nil (n : Nat) : natDigitBytes n ≠ [] :=
  (natDigitsAux_spec (n + 1) n (Nat.lt_succ_self n)).1

theorem natDigitBytes_all_digit (n : Nat) : (natDigitBytes n).all isDigitByte = true :=
  (natDigitsAux_spec (n + 1) n (Nat.lt_succ_self n)).2.1

theorem natDigitBytes_val (n : Nat) : digitsVal (natDigitBytes n) = n :=
  (natDigitsAux_spec (n + 1) n (Nat.lt_succ_self n)).2.2.1

theorem natDigitBytes_len (n k : Nat) (hk : 1 ≤ k) (h : n < 10 ^ k) :
    (natDigitBytes n).length ≤ k :=
  (natDigitsAux_spec (n + 1) n (Nat.lt_succ_self n)).2.2.2 k hk h

theorem digit_not_ws (b : Nat) (h : isDigitByte b = true) : isAsciiWhitespace b = false := by
  simp [isDigitByte] at h
  simp [isAsciiWhitespace]
  omega

theorem dropWhile_all_digits (l : Bytes) (h : ∀ x ∈ l, isDigitByte x = true) :
    l.dropWhile isAsciiWhitespace = l := by
  cases l with
  | nil => rfl
  | cons x xs =>
    rw [List.dropWhile_cons]
    rw [digit_not_ws x (h x (List.mem_cons_self x xs))]
    simp

theorem dropWhile_replicate_space (k : Nat) (l : Bytes) :
    (List.replicate k 0x20 ++ l).dropWhile isAsciiWhitespace = l.dropWhile isAsciiWhitespace := by
  induction k with
  | zero => simp
  | succ k ih =>
    rw [List.replicate_succ, List.cons_append, List.dropWhile_cons]
    rw [show isAsciiWhitespace 0x20 = true from rfl]
    simp only [if_true]
    exact ih

theorem trim_spaces_digits (k : Nat) (ds : Bytes) (h : ds.all isDigitByte = true) :
    trimBytes (List.replicate k 0x20 ++ ds) = ds := by
  have hmem : ∀ x ∈ ds, isDigitByte x = true := List.all_eq_true.mp h
  unfold trimBytes
  rw [dropWhile_replicate_space, dropWhile_all_digits ds hmem,
    dropWhile_all_digits ds.reverse (fun x hx => hmem x (List.mem_reverse.mp hx)),
    List.reverse_reverse]

theorem parseUsize_digits (ds : Bytes) (hne : ds ≠ []) (hall : ds.all isDigitByte = true) :
    parseUsize ds = if digitsVal ds < USIZE_BOUND then some (digitsVal ds) else none := by
  have hhead : ¬ ds.head? = some 0x2B := by
    cases ds with
    | nil => simp at hne
    | cons d rest =>
      have hd := List.all_eq_true.mp hall d (List.mem_cons_self d rest)
      simp [isDigitByte] at hd
      simp
      omega
  unfold parseUsize
  rw [if_neg hhead]
  have : (!ds.isEmpty && ds.all isDigitByte) = true := by
    rw [hall]
    simp [List.isEmpty_iff, hne]
  rw [if_pos this]

theorem rightJust_eq (w : Nat) (s : Bytes) :
    rightJust w s = List.replicate (w - s.length) 0x20 ++ s := rfl

theorem parse_rightJust (off : Nat) (hoff : off < USIZE_BOUND) :
    parseUsize (trimBytes (rightJust 5 (natDigitBytes off))) = some off := by
  rw [rightJust_eq, trim_spaces_digits _ _ (natDigitBytes_all_digit off),
    parseUsize_digits _ (natDigitBytes_ne_nil off) (natDigitBytes_all_digit off),
    natDigitBytes_val, if_pos hoff]

/-! ### Line structure lemmas -/

theorem hex_byte_bounds (c : Nat) (h : isAsciiHexDigit c = true) : 0x20 ≤ c ∧ c < 0x80 := by
  simp [isAsciiHexDigit] at h
  omega

theorem digit_byte_bounds (b : Nat) (h : isDigitByte b = true) : 0x20 ≤ b ∧ b < 0x80 := by
  simp [isDigitByte] at h
  omega

theorem formatLine_mem (d : Bytes) (o : Nat) (hd : d.all isAsciiHexDigit = true) :
    ∀ b ∈ formatLine d o, 0x20 ≤ b ∧ b < 0x80 := by
  intro b hb
  unfold formatLine at hb
  rcases List.mem_append.mp hb with h | h
  · exact hex_byte_bounds b (List.all_eq_true.mp hd b h)
  · rcases List.mem_cons.mp h with h | h
    · subst h; omega
    · rw [rightJust_eq] at h
      rcases List.mem_append.mp h with h | h
      · rw [List.eq_of_mem_replicate h]; omega
      · exact digit_byte_bounds b (List.all_eq_true.mp (natDigitBytes_all_digit o) b h)

theorem rightJust_length (w : Nat) (s : Bytes) :
    (rightJust w s).length = max w s.length := by
  rw [rightJust_eq]
  simp [List.length_replicate]
  omega

theorem formatLine_length (d : Bytes) (o : Nat) :
    (formatLine d o).length = d.length + 1 + max 5 (natDigitBytes o).length := by
  unfold formatLine
  simp [rightJust_length]
  omega

theorem formatLine_length_ge (d : Bytes) (o : Nat) (hd : d.length = 61) :
    67 ≤ (formatLine d o).length := by
  rw [formatLine_length, hd]
  omega

theorem formatLine_length_67 (d : Bytes) (o : Nat) (hd : d.length = 61) (ho : o < 10 ^ 5) :
    (formatLine d o).length = 67 := by
  rw [formatLine_length, hd]
  have h1 : 1 ≤ (natDigitBytes o).length := by
    have := natDigitBytes_ne_nil o
    cases hnd : natDigitBytes o with
    | nil => exact absurd hnd this
    | cons x xs => simp
  have h5 : (natDigitBytes o).length ≤ 5 := natDigitBytes_len o 5 (by omega) ho
  omega

theorem isCharBoundary_of_ascii (s : Bytes) (n : Nat) (hmem : ∀ b ∈ s, b < 0x80)
    (hn : n ≤ s.length) : isCharBoundary s n = true := by
  unfold isCharBoundary
  rcases Nat.lt_or_ge n s.length with hlt | hge
  · have hgd : s.getD n 0 = s[n] := by
      simp [List.getD, List.getElem?_eq_getElem hlt]
    have hv := hmem _ (List.getElem_mem hlt)
    simp [hlt, isContByte, hgd]
    omega
  · have : n = s.length := by omega
    simp [this]

theorem sliceTo_formatLine (d : Bytes) (o : Nat) (hd : ValidHex STORAGE_DIGEST_LENGTH d) :
    sliceTo (formatLine d o) STORAGE_DIGEST_LENGTH = some d := by
  obtain ⟨hlen, hhex⟩ := hd
  have hmem : ∀ b ∈ formatLine d o, b < 0x80 := fun b hb => (formatLine_mem d o hhex b hb).2
  have hbnd : STORAGE_DIGEST_LENGTH ≤ (formatLine d o).length := by
    have := formatLine_length_ge d o hlen
    unfold STORAGE_DIGEST_LENGTH
    omega
  unfold sliceTo
  rw [if_pos (isCharBoundary_of_ascii _ _ hmem hbnd)]
  unfold formatLine
  rw [show (STORAGE_DIGEST_LENGTH : Nat) = d.length from hlen.symm]
  rw [List.take_left]

theorem sliceFrom_formatLine (d : Bytes) (o : Nat) (hd : ValidHex STORAGE_DIGEST_LENGTH d) :
    sliceFrom (formatLine d o) (STORAGE_DIGEST_LENGTH + 1) =
      some (rightJust 5 (natDigitBytes o)) := by
  obtain ⟨hlen, hhex⟩ := hd
  have hmem : ∀ b ∈ formatLine d o, b < 0x80 := fun b hb => (formatLine_mem d o hhex b hb).2
  have hbnd : STORAGE_DIGEST_LENGTH + 1 ≤ (formatLine d o).length := by
    have := formatLine_length_ge d o hlen
    unfold STORAGE_DIGEST_LENGTH
    omega
  unfold sliceFrom
  rw [if_pos (isCharBoundary_of_ascii _ _ hmem hbnd)]
  unfold formatLine
  rw [show d ++ 0x20 :: rightJust 5 (natDigitBytes o) =
    (d ++ [0x20]) ++ rightJust 5 (natDigitBytes o) from by simp]
  rw [show (STORAGE_DIGEST_LENGTH + 1 : Nat) = (d ++ [0x20]).length from by
    simp [hlen, STORAGE_DIGEST_LENGTH]]
  rw [List.drop_left]

/-- C9: for every valid digest and `usize` offset, serializing a ledger
line (digest, one space, offset right-justified to five characters) and
re-parsing it by slicing at the digest width and trim-parsing the
remainder yields the original pair exactly; when the offset fits the
five-digit field the line body is exactly 67 bytes (68 with newline). -/
theorem ledger_line_roundtrip (d : Bytes) (off : Nat)
    (hd : ValidHex STORAGE_DIGEST_LENGTH d) (hoff : off < USIZE_BOUND) :
    sliceTo (formatLine d off) STORAGE_DIGEST_LENGTH = some d ∧
    (sliceFrom (formatLine d off) (STORAGE_DIGEST_LENGTH + 1)).bind
      (fun rest => parseUsize (trimBytes rest)) = some off ∧
    (off < 10 ^ 5 → (formatLine d off).length + 1 = 68) := by
  refine ⟨sliceTo_formatLine d off hd, ?_, ?_⟩
  · rw [sliceFrom_formatLine d off hd]
    exact parse_rightJust off hoff
  · intro h5
    rw [formatLine_length_67 d off hd.1 h5]

/-! ### Binary search lemmas -/

theorem getD_eq_getElem (l : List Bytes) (i : Nat) (h : i < l.length) : l.getD i [] = l[i] := by
  simp [List.getD, List.getElem?_eq_getElem h]

theorem pairwise_getD (l : List Bytes) (hs : l.Pairwise strLt) (i j : Nat)
    (hij : i < j) (hj : j < l.length) : strLt (l.getD i []) (l.getD j []) := by
  have hi : i < l.length := Nat.lt_trans hij hj
  rw [getD_eq_getElem l i hi, getD_eq_getElem l j hj]
  exact List.pairwise_iff_get.mp hs ⟨i, hi⟩ ⟨j, hj⟩ hij

theorem bsAux_sorted_spec (fuel : Nat) :
    ∀ (l : List Bytes) (t : Bytes) (left right : Nat),
      right - left < fuel → left ≤ right → right ≤ l.length →
      l.Pairwise strLt →
      (∀ j, j < left → strLt (l.getD j []) t) →
      (∀ j, right ≤ j → j < l.length → strLt t (l.getD j [])) →
      (match bsAux fuel l t left right with
       | .ok i => i < l.length ∧ l.getD i [] = t
       | .error i => i ≤ l.length ∧ (∀ j, j < i → strLt (l.getD j []) t) ∧
           (∀ j, i ≤ j → j < l.length → strLt t (l.getD j []))) := by
  induction fuel with
  | zero => intro l t left right hfuel _ _ _ _ _; omega
  | succ fuel ih =>
    intro l t left right hfuel hlr hrlen hs hleft hright
    show (match bsAux (fuel + 1) l t left right with
       | .ok i => i < l.length ∧ l.getD i [] = t
       | .error i => i ≤ l.length ∧ (∀ j, j < i → strLt (l.getD j []) t) ∧
           (∀ j, i ≤ j → j < l.length → strLt t (l.getD j [])))
    by_cases hlt : left < right
    · have hmid : left + (right - left) / 2 < right := by omega
      have hmidlen : left + (right - left) / 2 < l.length := by omega
      rw [show bsAux (fuel + 1) l t left right =
        (match strCmp (l.getD (left + (right - left) / 2) []) t with
         | .lt => bsAux fuel l t (left + (right - left) / 2 + 1) right
         | .gt => bsAux fuel l t left (left + (right - left) / 2)
         | .eq => .ok (left + (right - left) / 2)) from by
          simp [bsAux, hlt]]
      cases hcmp : strCmp (l.getD (left + (right - left) / 2) []) t with
      | lt =>
        refine ih l t (left + (right - left) / 2 + 1) right (by omega) (by omega) hrlen hs
          ?_ hright
        intro j hj
        rcases Nat.lt_or_ge j (left + (right - left) / 2) with hjm | hjm
        · exact strLt_trans (pairwise_getD l hs j _ hjm hmidlen) hcmp
        · have : j = left + (right - left) / 2 := by omega
          rw [this]
          exact hcmp
      | gt =>
        refine ih l t left (left + (right - left) / 2) (by omega) (by omega) (by omega) hs
          hleft ?_
        intro j hj hjlen
        have hmt : strLt t (l.getD (left + (right - left) / 2) []) := strCmp_gt_iff.mp hcmp
        rcases Nat.lt_or_ge (left + (right - left) / 2) j with hjm | hjm
        · exact strLt_trans hmt (pairwise_getD l hs _ j hjm hjlen)
        · have : j = left + (right - left) / 2 := by omega
          rw [this]
          exact hmt
      | eq =>
        exact ⟨hmidlen, strCmp_eq_iff.mp hcmp⟩
    · rw [show bsAux (fuel + 1) l t left right = .error left from by simp [bsAux, hlt]]
      have hle : left = right := by omega
      exact ⟨by omega, hleft, fun j hj hjlen => hright j (by omega) hjlen⟩

theorem binarySearch_sorted_spec (l : List Bytes) (t : Bytes) (hs : l.Pairwise strLt) :
    (match binarySearch l t with
     | .ok i => i < l.length ∧ l.getD i [] = t
     | .error i => i ≤ l.length ∧ (∀ j, j < i → strLt (l.getD j []) t) ∧
         (∀ j, i ≤ j → j < l.length → strLt t (l.getD j []))) :=
  bsAux_sorted_spec (l.length + 1) l t 0 l.length (by omega) (Nat.zero_le _) le_rfl hs
    (by omega) (by omega)

theorem bsAux_bounds (fuel : Nat) :
    ∀ (l : List Bytes) (t : Bytes) (left right : Nat),
      left ≤ right → right ≤ l.length →
      (match bsAux fuel l t left right with
       | .ok i => i < l.length
       | .error i => i ≤ l.length) := by
  induction fuel with
  | zero =>
    intro l t left right h1 h2
    show (match Except.error left with
      | (Except.ok i : Except Nat Nat) => i < l.length
      | .error i => i ≤ l.length)
    omega
  | succ fuel ih =>
    intro l t left right h1 h2
    show (match bsAux (fuel + 1) l t left right with
       | .ok i => i < l.length
       | .error i => i ≤ l.length)
    by_cases hlt : left < right
    · have hmid : left + (right - left) / 2 < right := by omega
      rw [show bsAux (fuel + 1) l t left right =
        (match strCmp (l.getD (left + (right - left) / 2) []) t with
         | .lt => bsAux fuel l t (left + (right - left) / 2 + 1) right
         | .gt => bsAux fuel l t left (left + (right - left) / 2)
         | .eq => .ok (left + (right - left) / 2)) from by
          simp [bsAux, hlt]]
      cases strCmp (l.getD (left + (right - left) / 2) []) t with
      | lt => exact ih l t (left + (right - left) / 2 + 1) right (by omega) h2
      | gt => exact ih l t left (left + (right - left) / 2) (by omega) (by omega)
      | eq => show left + (right - left) / 2 < l.length; omega
    · rw [show bsAux (fuel + 1) l t left right = .error left from by simp [bsAux, hlt]]
      show left ≤ l.length
      omega

theorem binarySearch_bounds (l : List Bytes) (t : Bytes) :
    (match binarySearch l t with
     | .ok i => i < l.length
     | .error i => i ≤ l.length) :=
  bsAux_bounds (l.length + 1) l t 0 l.length (Nat.zero_le _) le_rfl

theorem binarySearch_found (l : List Bytes) (t : Bytes) (hs : l.Pairwise strLt)
    (hmem : t ∈ l) : ∃ i, binarySearch l t = .ok i ∧ i < l.length ∧ l.getD i [] = t := by
  have hspec := binarySearch_sorted_spec l t hs
  obtain ⟨k, hk⟩ := List.mem_iff_get.mp hmem
  cases hres : binarySearch l t with
  | ok i =>
    rw [hres] at hspec
    exact ⟨i, rfl, hspec⟩
  | error i =>
    rw [hres] at hspec
    obtain ⟨hile, hlo, hhi⟩ := hspec
    have hkd : l.getD k.1 [] = t := by rw [getD_eq_getElem l k.1 k.2]; simpa using hk
    rcases Nat.lt_or_ge k.1 i with hki | hki
    · have := hlo k.1 hki
      rw [hkd] at this
      exact absurd this (strLt_irrefl t)
    · have := hhi k.1 hki k.2
      rw [hkd] at this
      exact absurd this (strLt_irrefl t)

theorem binarySearch_not_found (l : List Bytes) (t : Bytes) (hs : l.Pairwise strLt)
    (hnm : t ∉ l) : ∃ i, binarySearch l t = .error i ∧ i ≤ l.length ∧
      (∀ j, j < i → strLt (l.getD j []) t) ∧
      (∀ j, i ≤ j → j < l.length → strLt t (l.getD j [])) := by
  have hspec := binarySearch_sorted_spec l t hs
  cases hres : binarySearch l t with
  | ok i =>
    rw [hres] at hspec
    obtain ⟨hlt, heq⟩ := hspec
    rw [getD_eq_getElem l i hlt] at heq
    exact absurd (heq ▸ List.getElem_mem hlt) hnm
  | error i =>
    rw [hres] at hspec
    exact ⟨i, rfl, hspec⟩

theorem getD0_eq_getElem (l : List Nat) (i : Nat) (h : i < l.length) : l.getD i 0 = l[i] := by
  simp [List.getD, List.getElem?_eq_getElem h]

/-! ### Blob rendering and re-parsing -/

theorem rawLinesAux_sep (l : Bytes) (hnl : (0x0A : Nat) ∉ l) :
    ∀ acc rest, rawLinesAux (l ++ 0x0A :: rest) acc =
      (acc.reverse ++ l) :: rawLinesAux rest [] := by
  induction l with
  | nil =>
    intro acc rest
    simp [rawLinesAux]
  | cons b bs ih =>
    intro acc rest
    have hb : b ≠ 0x0A := fun h => hnl (h ▸ List.mem_cons_self b bs)
    rw [List.cons_append]
    show rawLinesAux (b :: (bs ++ 0x0A :: rest)) acc = _
    rw [show rawLinesAux (b :: (bs ++ 0x0A :: rest)) acc =
      rawLinesAux (bs ++ 0x0A :: rest) (b :: acc) from by
        simp [rawLinesAux, hb]]
    rw [ih (fun h => hnl (List.mem_cons_of_mem b h)) (b :: acc) rest]
    simp

theorem rawLines_join (ls : List Bytes) (h : ∀ l ∈ ls, (0x0A : Nat) ∉ l) (hne : ls ≠ []) :
    rawLines (joinNl ls ++ [0x0A]) = ls := by
  induction ls with
  | nil => exact absurd rfl hne
  | cons l ls ih =>
    cases ls with
    | nil =>
      unfold rawLines
      rw [show joinNl [l] = l from rfl, show l ++ [0x0A] = l ++ 0x0A :: [] from rfl]
      rw [rawLinesAux_sep l (h l (List.mem_cons_self l [])) [] []]
      rfl
    | cons l2 ls2 =>
      unfold rawLines
      rw [show joinNl (l :: l2 :: ls2) = l ++ 0x0A :: joinNl (l2 :: ls2) from rfl]
      rw [show (l ++ 0x0A :: joinNl (l2 :: ls2)) ++ [0x0A] =
        l ++ 0x0A :: (joinNl (l2 :: ls2) ++ [0x0A]) from by simp]
      rw [rawLinesAux_sep l (h l (List.mem_cons_self l _)) [] (joinNl (l2 :: ls2) ++ [0x0A])]
      rw [show ([] : Bytes).reverse ++ l = l from by simp]
      have := ih (fun x hx => h x (List.mem_cons_of_mem l hx)) (by simp)
      unfold rawLines at this
      rw [this]

theorem dropFinalCr_id (l : Bytes) (h : ∀ b ∈ l, 0x20 ≤ b) : dropFinalCr l = l := by
  unfold dropFinalCr
  cases hl : l.getLast? with
  | none => simp
  | some x =>
    have hx : x ∈ l := by
      obtain ⟨hne, hex⟩ := List.mem_getLast?_eq_getLast (by rw [hl]; rfl)
      rw [hex]
      exact List.getLast_mem hne
    have := h x hx
    rw [if_neg (by simp; omega)]

theorem linesUpToErr_ascii (ls : List Bytes)
    (h : ∀ l ∈ ls, ∀ b ∈ l, 0x20 ≤ b ∧ b < 0x80) : linesUpToErr ls = ls := by
  induction ls with
  | nil => rfl
  | cons l ls ih =>
    have hl := h l (List.mem_cons_self l ls)
    have hdec : utf8Decode l = some l := utf8Decode_ascii l (fun b hb => (hl b hb).2)
    unfold linesUpToErr
    rw [hdec]
    simp only [Option.isSome_some, if_true]
    rw [dropFinalCr_id l (fun b hb => (hl b hb).1)]
    rw [ih (fun x hx => h x (List.mem_cons_of_mem l hx))]

theorem entryLine_mem (e : Bytes × Nat) (he : ValidHex STORAGE_DIGEST_LENGTH e.1) :
    ∀ b ∈ entryLine e, 0x20 ≤ b ∧ b < 0x80 :=
  formatLine_mem e.1 e.2 he.2

theorem rustLines_render (entries : List (Bytes × Nat)) (hne : entries ≠ [])
    (hhex : ∀ e ∈ entries, ValidHex STORAGE_DIGEST_LENGTH e.1) :
    rustLines (renderLedger entries) = entries.map entryLine := by
  have hmem : ∀ l ∈ entries.map entryLine, ∀ b ∈ l, 0x20 ≤ b ∧ b < 0x80 := by
    intro l hl
    obtain ⟨e, he, rfl⟩ := List.mem_map.mp hl
    exact entryLine_mem e (hhex e he)
  unfold rustLines renderLedger
  rw [rawLines_join (entries.map entryLine)
    (fun l hl hmm => by have := hmem l hl 0x0A hmm; omega)
    (by simpa using hne)]
  exact linesUpToErr_ascii _ hmem

theorem joinNl_flatten (ls : List Bytes) (hne : ls ≠ []) :
    joinNl ls ++ [0x0A] = (ls.map (fun l => l ++ [0x0A])).flatten := by
  induction ls with
  | nil => exact absurd rfl hne
  | cons l ls ih =>
    cases ls with
    | nil => simp [joinNl]
    | cons l2 ls2 =>
      rw [show joinNl (l :: l2 :: ls2) = l ++ 0x0A :: joinNl (l2 :: ls2) from rfl]
      rw [show (l ++ 0x0A :: joinNl (l2 :: ls2)) ++ [0x0A] =
        l ++ [0x0A] ++ (joinNl (l2 :: ls2) ++ [0x0A]) from by simp]
      rw [ih (by simp)]
      simp

/-! ### Core step lemmas for digest_offset -/

theorem mapOpt_sliceTo (entries : List (Bytes × Nat))
    (hhex : ∀ e ∈ entries, ValidHex STORAGE_DIGEST_LENGTH e.1) :
    mapOpt (fun s => sliceTo s STORAGE_DIGEST_LENGTH) (entries.map entryLine) =
      some (entries.map Prod.fst) := by
  induction entries with
  | nil => rfl
  | cons e es ih =>
    simp only [List.map_cons]
    unfold mapOpt
    rw [show sliceTo (entryLine e) STORAGE_DIGEST_LENGTH = some e.1 from
      sliceTo_formatLine e.1 e.2 (hhex e (List.mem_cons_self e es))]
    rw [ih (fun x hx => hhex x (List.mem_cons_of_mem e hx))]

theorem digest_offset_get_error {σ : Type} (b : ConnectionBridge σ) (s : σ) (dom : Bytes)
    (stg : Storage) (e : IoError) (hget : b.get s stg.key = .error e) :
    digest_offset b s dom stg = some (.error (Error.StorageFailure e)) := by
  unfold digest_offset
  rw [hget]

theorem digest_offset_eq_core {σ : Type} (b : ConnectionBridge σ) (s : σ) (dom : Bytes)
    (stg : Storage) (stored : Option Bytes) (hget : b.get s stg.key = .ok stored) :
    digest_offset b s dom stg =
      digest_offset_core (fun body => b.put s stg.key body) s stg.digest
        (linesOfState stored) := by
  unfold digest_offset digest_offset_core afterSearch hitPath missPath linesOfState
  rw [hget]

theorem core_searchLines {σ : Type} (put1 : Bytes → Except IoError σ) (st : σ)
    (digest : Bytes) (lines search_lines : List Bytes)
    (h : mapOpt (fun s => sliceTo s digest.length) lines = some search_lines) :
    digest_offset_core put1 st digest lines = afterSearch put1 st digest lines search_lines := by
  unfold digest_offset_core
  rw [h]

theorem afterSearch_ok {σ : Type} (put1 : Bytes → Except IoError σ) (st : σ)
    (digest : Bytes) (lines search_lines : List Bytes) (i : Nat)
    (h : binarySearch search_lines digest = .ok i) :
    afterSearch put1 st digest lines search_lines = hitPath st digest lines i := by
  unfold afterSearch
  rw [h]

theorem afterSearch_err {σ : Type} (put1 : Bytes → Except IoError σ) (st : σ)
    (digest : Bytes) (lines search_lines : List Bytes) (i : Nat)
    (h : binarySearch search_lines digest = .error i) :
    afterSearch put1 st digest lines search_lines = missPath put1 digest lines i := by
  unfold afterSearch
  rw [h]

theorem hitPath_line {σ : Type} (st : σ) (digest : Bytes) (lines : List Bytes)
    (i : Nat) (ln : Bytes) (h1 : lines[i]? = some ln) :
    hitPath st digest lines i =
      match sliceFrom ln (digest.length + 1) with
      | none => none
      | some rest =>
        match parseUsize (trimBytes rest) with
        | none => none
        | some found_offset => some (.ok (found_offset, st)) := by
  unfold hitPath
  rw [h1]

theorem hitPath_parse {σ : Type} (st : σ) (digest : Bytes) (lines : List Bytes)
    (i : Nat) (ln rest : Bytes) (h1 : lines[i]? = some ln)
    (h2 : sliceFrom ln (digest.length + 1) = some rest) :
    hitPath st digest lines i =
      match parseUsize (trimBytes rest) with
      | none => none
      | some found_offset => some (.ok (found_offset, st)) := by
  rw [hitPath_line st digest lines i ln h1, h2]

theorem missPath_put {σ : Type} (put1 : Bytes → Except IoError σ) (digest : Bytes)
    (lines : List Bytes) (i : Nat) (nl : List Bytes)
    (h : insertAtChecked i (formatLine digest lines.length) lines = some nl) :
    missPath put1 digest lines i =
      match put1 (joinNl nl ++ [0x0A]) with
      | .error e => some (.error (Error.StorageFailure e))
      | .ok st2 => some (.ok (lines.length, st2)) := by
  unfold missPath
  rw [h]

theorem mapFst_getD (entries : List (Bytes × Nat)) (j : Nat) (hj : j < entries.length) :
    (entries.map Prod.fst).getD j [] = entries[j].1 := by
  rw [getD_eq_getElem _ j (by simpa using hj)]
  simp

theorem entries_at_idx (entries : List (Bytes × Nat)) (d : Bytes) (o : Nat)
    (hsorted : (entries.map Prod.fst).Pairwise strLt)
    (hmem : (d, o) ∈ entries) (i : Nat) (hi : i < entries.length)
    (hfst : (entries.map Prod.fst).getD i [] = d) : entries[i] = (d, o) := by
  obtain ⟨k, hk, hke⟩ := List.mem_iff_getElem.mp hmem
  have hfst2 : entries[i].1 = d := by rw [← hfst, mapFst_getD entries i hi]
  by_cases hik : i = k
  · subst hik
    exact hke
  · exfalso
    have h1 : entries[k].1 = d := by rw [hke]
    rcases Nat.lt_or_ge i k with h | h
    · have := pairwise_getD _ hsorted i k h (by simpa using hk)
      rw [mapFst_getD entries i hi, mapFst_getD entries k hk, hfst2, h1] at this
      exact strLt_irrefl d this
    · have hki : k < i := by omega
      have := pairwise_getD _ hsorted k i hki (by simpa using hi)
      rw [mapFst_getD entries i hi, mapFst_getD entries k hk, hfst2, h1] at this
      exact strLt_irrefl d this

theorem digest_offset_hit {σ : Type} (b : ConnectionBridge σ) (s : σ) (dom : Bytes)
    (stg : Storage) (stored : Option Bytes) (entries : List (Bytes × Nat)) (o : Nat)
    (hget : b.get s stg.key = .ok stored)
    (hlines : linesOfState stored = entries.map entryLine)
    (hsorted : (entries.map Prod.fst).Pairwise strLt)
    (hhex : ∀ e ∈ entries, ValidHex STORAGE_DIGEST_LENGTH e.1)
    (hd : ValidHex STORAGE_DIGEST_LENGTH stg.digest)
    (hmem : (stg.digest, o) ∈ entries) :
    digest_offset b s dom stg = if o < USIZE_BOUND then some (.ok (o, s)) else none := by
  obtain ⟨i, hfind, hilen, hieq⟩ := binarySearch_found (entries.map Prod.fst) stg.digest hsorted
    (List.mem_map.mpr ⟨(stg.digest, o), hmem, rfl⟩)
  have hilen2 : i < entries.length := by simpa using hilen
  have hentry : entries[i] = (stg.digest, o) :=
    entries_at_idx entries _ o hsorted hmem i hilen2 hieq
  rw [digest_offset_eq_core b s dom stg stored hget, hlines]
  rw [core_searchLines _ s stg.digest _ (entries.map Prod.fst)
    (by rw [hd.1]; exact mapOpt_sliceTo entries hhex)]
  rw [afterSearch_ok _ s stg.digest _ _ i hfind]
  rw [hitPath_parse s stg.digest _ i (entryLine (stg.digest, o))
    (rightJust 5 (natDigitBytes o))
    (by
      rw [List.getElem?_eq_getElem (by simpa using hilen2)]
      simp [hentry])
    (by
      rw [hd.1]
      exact sliceFrom_formatLine _ o hd)]
  rw [rightJust_eq, trim_spaces_digits _ _ (natDigitBytes_all_digit o),
    parseUsize_digits _ (natDigitBytes_ne_nil o) (natDigitBytes_all_digit o),
    natDigitBytes_val]
  by_cases ho : o < USIZE_BOUND
  · rw [if_pos ho, if_pos ho]
  · rw [if_neg ho, if_neg ho]

theorem digest_offset_miss {σ : Type} (b : ConnectionBridge σ) (s : σ) (dom : Bytes)
    (stg : Storage) (stored : Option Bytes) (entries : List (Bytes × Nat))
    (hget : b.get s stg.key = .ok stored)
    (hlines : linesOfState stored = entries.map entryLine)
    (hsorted : (entries.map Prod.fst).Pairwise strLt)
    (hhex : ∀ e ∈ entries, ValidHex STORAGE_DIGEST_LENGTH e.1)
    (hd : ValidHex STORAGE_DIGEST_LENGTH stg.digest)
    (hnm : stg.digest ∉ entries.map Prod.fst) :
    ∃ i, binarySearch (entries.map Prod.fst) stg.digest = .error i ∧ i ≤ entries.length ∧
      (∀ j, j < i → strLt ((entries.map Prod.fst).getD j []) stg.digest) ∧
      (∀ j, i ≤ j → j < entries.length → strLt stg.digest ((entries.map Prod.fst).getD j [])) ∧
      digest_offset b s dom stg =
        match b.put s stg.key
          (renderLedger (entries.take i ++ (stg.digest, entries.length) :: entries.drop i)) with
        | .error e => some (.error (Error.StorageFailure e))
        | .ok s2 => some (.ok (entries.length, s2)) := by
  obtain ⟨i, hfind, hile, hlo, hhi⟩ := binarySearch_not_found _ stg.digest hsorted hnm
  have hile2 : i ≤ entries.length := by simpa using hile
  refine ⟨i, hfind, hile2, hlo, fun j hj hjl => hhi j hj (by simpa using hjl), ?_⟩
  rw [digest_offset_eq_core b s dom stg stored hget, hlines]
  rw [core_searchLines _ s stg.digest _ (entries.map Prod.fst)
    (by rw [hd.1]; exact mapOpt_sliceTo entries hhex)]
  rw [afterSearch_err _ s stg.digest _ _ i hfind]
  rw [missPath_put (fun body => b.put s stg.key body) stg.digest (entries.map entryLine) i
    ((entries.take i ++ (stg.digest, entries.length) :: entries.drop i).map entryLine)
    (by
      unfold insertAtChecked
      rw [if_pos (by simpa using hile2)]
      simp [entryLine, List.map_take, List.map_drop])]
  rw [List.length_map]
  rw [show joinNl ((entries.take i ++ (stg.digest, entries.length) :: entries.drop i).map
    entryLine) ++ [0x0A] =
    renderLedger (entries.take i ++ (stg.digest, entries.length) :: entries.drop i) from rfl]

/-! ### Insertion preserves the ledger invariants -/

theorem insertAt_mem {α : Type} (l : List α) (i : Nat) (x p : α) :
    p ∈ l.take i ++ x :: l.drop i ↔ p = x ∨ p ∈ l := by
  simp only [List.mem_append, List.mem_cons]
  constructor
  · rintro (h | h | h)
    · exact Or.inr (List.mem_of_mem_take h)
    · exact Or.inl h
    · exact Or.inr (List.mem_of_mem_drop h)
  · rintro (rfl | h)
    · exact Or.inr (Or.inl rfl)
    · have h2 : p ∈ l.take i ++ l.drop i := by
        rw [List.take_append_drop]
        exact h
      rcases List.mem_append.mp h2 with h3 | h3
      · exact Or.inl h3
      · exact Or.inr (Or.inr h3)

theorem insertAt_length {α : Type} (l : List α) (i : Nat) (x : α) (h : i ≤ l.length) :
    (l.take i ++ x :: l.drop i).length = l.length + 1 := by
  simp
  omega

theorem insert_sorted (entries : List (Bytes × Nat)) (d : Bytes) (i o : Nat)
    (hsorted : (entries.map Prod.fst).Pairwise strLt)
    (hlo : ∀ j, j < i → strLt ((entries.map Prod.fst).getD j []) d)
    (hhi : ∀ j, i ≤ j → j < entries.length → strLt d ((entries.map Prod.fst).getD j []))
    (hi : i ≤ entries.length) :
    ((entries.take i ++ (d, o) :: entries.drop i).map Prod.fst).Pairwise strLt := by
  have hL : (entries.take i ++ (d, o) :: entries.drop i).map Prod.fst
      = (entries.map Prod.fst).take i ++ d :: (entries.map Prod.fst).drop i := by
    rw [List.map_append, List.map_cons, List.map_take, List.map_drop]
  rw [hL]
  have hlen : (entries.map Prod.fst).length = entries.length := by simp
  rw [List.pairwise_append]
  refine ⟨hsorted.sublist (List.take_sublist i _), ?_, ?_⟩
  · rw [List.pairwise_cons]
    refine ⟨?_, hsorted.sublist (List.drop_sublist i _)⟩
    intro y hy
    obtain ⟨k, hk, hke⟩ := List.mem_iff_getElem.mp hy
    have hkL : i + k < (entries.map Prod.fst).length := by
      simp at hk
      omega
    have hyv : y = (entries.map Prod.fst).getD (i + k) [] := by
      rw [getD_eq_getElem _ (i + k) hkL, ← hke]
      exact List.getElem_drop _
    rw [hyv]
    exact hhi (i + k) (by omega) (by omega)
  · intro x hx y hy
    obtain ⟨k, hk, hke⟩ := List.mem_iff_getElem.mp hx
    have hkl : k < i := by
      simp at hk
      omega
    have hkL : k < (entries.map Prod.fst).length := by
      simp at hk
      omega
    have hxv : x = (entries.map Prod.fst).getD k [] := by
      rw [getD_eq_getElem _ k hkL, ← hke]
      exact List.getElem_take _
    rcases List.mem_cons.mp hy with rfl | hy2
    · rw [hxv]
      exact hlo k hkl
    · obtain ⟨m, hm, hme⟩ := List.mem_iff_getElem.mp hy2
      have hmL : i + m < (entries.map Prod.fst).length := by
        simp at hm
        omega
      have hyv : y = (entries.map Prod.fst).getD (i + m) [] := by
        rw [getD_eq_getElem _ (i + m) hmL, ← hme]
        exact List.getElem_drop _
      rw [hxv, hyv]
      exact pairwise_getD _ hsorted k (i + m) (by omega) hmL

theorem dense_insert (entries : List (Bytes × Nat)) (d : Bytes) (i : Nat)
    (h : DenseOffsets entries) (hi : i ≤ entries.length) :
    DenseOffsets (entries.take i ++ (d, entries.length) :: entries.drop i) := by
  unfold DenseOffsets at h ⊢
  have hperm : ((entries.take i ++ (d, entries.length) :: entries.drop i).map Prod.snd).Perm
      (entries.length :: entries.map Prod.snd) := by
    rw [List.map_append, List.map_cons]
    have h1 : entries.map Prod.snd
        = (entries.take i).map Prod.snd ++ (entries.drop i).map Prod.snd := by
      rw [← List.map_append, List.take_append_drop]
    rw [h1]
    exact List.perm_middle
  rw [insertAt_length entries i _ hi]
  have hrange : (List.range (entries.length + 1)).Perm
      (entries.length :: List.range entries.length) := by
    rw [List.range_succ]
    exact List.perm_append_singleton _ _
  exact hperm.trans ((h.cons entries.length).trans hrange.symm)

/-! ### Reachable states are well-formed ledgers -/

theorem reachable_ledger (s : Option Bytes) (h : Reachable s) :
    ∃ entries : List (Bytes × Nat),
      linesOfState s = entries.map entryLine ∧
      (entries.map Prod.fst).Pairwise strLt ∧
      (∀ e ∈ entries, ValidHex STORAGE_DIGEST_LENGTH e.1) ∧
      DenseOffsets entries ∧
      (entries = [] → s = none) ∧
      (entries ≠ [] → s = some (renderLedger entries)) := by
  induction h with
  | init =>
    exact ⟨[], rfl, List.Pairwise.nil, by simp, by unfold DenseOffsets; simp,
      fun _ => rfl, fun hne => absurd rfl hne⟩
  | step s s2 dom stg off hreach hstg hcall ih =>
    obtain ⟨entries, hlines, hsorted, hhex, hdense, hn, hs⟩ := ih
    have hget : oneKeyBridge.get s stg.key = .ok s := rfl
    by_cases hmem : stg.digest ∈ entries.map Prod.fst
    · obtain ⟨e, he, hefst⟩ := List.mem_map.mp hmem
      have heq : e = (stg.digest, e.2) := by
        cases e
        simp at hefst
        rw [hefst]
      have hhit := digest_offset_hit oneKeyBridge s dom stg s entries e.2 hget hlines
        hsorted hhex hstg.2 (heq ▸ he)
      rw [hhit] at hcall
      by_cases ho : e.2 < USIZE_BOUND
      · rw [if_pos ho] at hcall
        have hs2 : s2 = s := by
          cases hcall
          rfl
        rw [hs2]
        exact ⟨entries, hlines, hsorted, hhex, hdense, hn, hs⟩
      · rw [if_neg ho] at hcall
        cases hcall
    · obtain ⟨i, hfind, hile, hlo, hhi, heq⟩ := digest_offset_miss oneKeyBridge s dom stg s
        entries hget hlines hsorted hhex hstg.2 hmem
      rw [heq] at hcall
      have hput : oneKeyBridge.put s stg.key
          (renderLedger (entries.take i ++ (stg.digest, entries.length) :: entries.drop i))
          = .ok (some (renderLedger
            (entries.take i ++ (stg.digest, entries.length) :: entries.drop i))) := rfl
      rw [hput] at hcall
      have hs2 : s2 = some (renderLedger
          (entries.take i ++ (stg.digest, entries.length) :: entries.drop i)) := by
        cases hcall
        rfl
      refine ⟨entries.take i ++ (stg.digest, entries.length) :: entries.drop i, ?_, ?_, ?_, ?_, ?_, ?_⟩
      · rw [hs2]
        show rustLines (renderLedger _) = _
        refine rustLines_render _ (by simp) ?_
        intro e he
        rcases (insertAt_mem entries i _ e).mp he with rfl | he2
        · exact hstg.2
        · exact hhex e he2
      · exact insert_sorted entries stg.digest i entries.length hsorted hlo hhi hile
      · intro e he
        rcases (insertAt_mem entries i _ e).mp he with rfl | he2
        · exact hstg.2
        · exact hhex e he2
      · exact dense_insert entries stg.digest i hdense hile
      · intro hnil
        exact absurd hnil (by simp)
      · intro _
        exact hs2

/-- C1: for every ledger blob state produced by the protocol (with fewer
lines than `usize::MAX`, as any Rust `Vec` satisfies) and every valid
record, once `digest_offset` has returned an offset for
`(domain, key, digest)`, calling it again returns the same offset and the
same state unchanged: the second call finds the digest by binary search
and re-reads the stored offset. -/
theorem digest_offset_idempotent (s : Option Bytes) (hreach : Reachable s)
    (hsize : (linesOfState s).length < USIZE_BOUND)
    (dom : Bytes) (stg : Storage) (hstg : ValidStorage stg) (off : Nat) (s2 : Option Bytes)
    (h1 : digest_offset oneKeyBridge s dom stg = some (.ok (off, s2))) :
    digest_offset oneKeyBridge s2 dom stg = some (.ok (off, s2)) := by
  obtain ⟨entries, hlines, hsorted, hhex, hdense, hn, hs⟩ := reachable_ledger s hreach
  have hget : oneKeyBridge.get s stg.key = .ok s := rfl
  have hlenB : entries.length < USIZE_BOUND := by
    have : (linesOfState s).length = entries.length := by rw [hlines]; simp
    omega
  by_cases hmem : stg.digest ∈ entries.map Prod.fst
  · obtain ⟨e, he, hefst⟩ := List.mem_map.mp hmem
    have heq : e = (stg.digest, e.2) := by
      cases e
      simp at hefst
      rw [hefst]
    have ho : e.2 < entries.length := by
      have h2 : e.2 ∈ entries.map Prod.snd := List.mem_map.mpr ⟨e, he, rfl⟩
      have h3 := hdense.mem_iff.mp h2
      exact List.mem_range.mp h3
    have hhit := digest_offset_hit oneKeyBridge s dom stg s entries e.2 hget hlines
      hsorted hhex hstg.2 (heq ▸ he)
    rw [hhit, if_pos (by omega)] at h1
    have hoff : off = e.2 ∧ s2 = s := by
      cases h1
      exact ⟨rfl, rfl⟩
    obtain ⟨rfl, rfl⟩ := hoff
    rw [hhit, if_pos (by omega)]
  · obtain ⟨i, hfind, hile, hlo, hhi, heq⟩ := digest_offset_miss oneKeyBridge s dom stg s
      entries hget hlines hsorted hhex hstg.2 hmem
    rw [heq] at h1
    have hput : oneKeyBridge.put s stg.key
        (renderLedger (entries.take i ++ (stg.digest, entries.length) :: entries.drop i))
        = .ok (some (renderLedger
          (entries.take i ++ (stg.digest, entries.length) :: entries.drop i))) := rfl
    rw [hput] at h1
    have hoff : entries.length = off ∧ some (renderLedger
        (entries.take i ++ (stg.digest, entries.length) :: entries.drop i)) = s2 := by
      cases h1
      exact ⟨rfl, rfl⟩
    obtain ⟨hoffeq, hs2eq⟩ := hoff
    subst hoffeq
    subst hs2eq
    have hhexN : ∀ e ∈ entries.take i ++ (stg.digest, entries.length) :: entries.drop i,
        ValidHex STORAGE_DIGEST_LENGTH e.1 := by
      intro e he
      rcases (insertAt_mem entries i _ e).mp he with rfl | he2
      · exact hstg.2
      · exact hhex e he2
    have hlines2 : linesOfState (some (renderLedger
        (entries.take i ++ (stg.digest, entries.length) :: entries.drop i)))
        = (entries.take i ++ (stg.digest, entries.length) :: entries.drop i).map entryLine := by
      show rustLines (renderLedger _) = _
      exact rustLines_render _ (by simp) hhexN
    have hhit2 := digest_offset_hit oneKeyBridge
      (some (renderLedger (entries.take i ++ (stg.digest, entries.length) :: entries.drop i)))
      dom stg
      (some (renderLedger (entries.take i ++ (stg.digest, entries.length) :: entries.drop i)))
      (entries.take i ++ (stg.digest, entries.length) :: entries.drop i)
      entries.length rfl hlines2
      (insert_sorted entries stg.digest i entries.length hsorted hlo hhi hile)
      hhexN hstg.2 ((insertAt_mem entries i _ _).mpr (Or.inl rfl))
    rw [hhit2, if_pos hlenB]

/-- Witness for C1: from the empty ledger, allocating the digest
`"a"*61` returns offset 0 and the one-line blob, and the repeated call
returns 0 with the blob unchanged. -/
theorem digest_offset_idempotent_witness :
    digest_offset oneKeyBridge (some (renderLedger [(aDigest, 0)])) [0x62, 0x72]
      (Storage.mk exKey aDigest) =
      some (.ok (0, some (renderLedger [(aDigest, 0)]))) := by
  have h1 : digest_offset oneKeyBridge none [0x62, 0x72] (Storage.mk exKey aDigest) =
      some (.ok (0, some (renderLedger [(aDigest, 0)]))) := by decide
  exact digest_offset_idempotent none Reachable.init (by decide) [0x62, 0x72]
    (Storage.mk exKey aDigest) (by decide) 0 (some (renderLedger [(aDigest, 0)])) h1

/-- C5: a missing blob is an empty ledger: when the connector's `get`
returns absence, `digest_offset` does not fail; the first valid digest
allocated receives offset 0 and the written blob is exactly one 68-byte
line — the digest, a space, `0` right-justified to five characters, and a
newline. -/
theorem missing_blob_empty_ledger (dom : Bytes) (stg : Storage) (hstg : ValidStorage stg) :
    digest_offset oneKeyBridge none dom stg =
      some (.ok (0, some (renderLedger [(stg.digest, 0)]))) ∧
    renderLedger [(stg.digest, 0)] =
      stg.digest ++ [0x20, 0x20, 0x20, 0x20, 0x20, 0x30, 0x0A] ∧
    (renderLedger [(stg.digest, 0)]).length = 68 := by
  have hline : renderLedger [(stg.digest, 0)] =
      stg.digest ++ [0x20, 0x20, 0x20, 0x20, 0x20, 0x30, 0x0A] := by
    show joinNl [entryLine (stg.digest, 0)] ++ [0x0A] = _
    rw [show joinNl [entryLine (stg.digest, 0)] = entryLine (stg.digest, 0) from rfl]
    show formatLine stg.digest 0 ++ [0x0A] = _
    unfold formatLine
    rw [show natDigitBytes 0 = [0x30] from rfl]
    rw [rightJust_eq]
    simp
  refine ⟨?_, hline, ?_⟩
  · have hget : oneKeyBridge.get none stg.key = .ok none := rfl
    obtain ⟨i, hfind, hile, _, _, heq⟩ := digest_offset_miss oneKeyBridge none dom stg none
      [] hget rfl (by simp) (by simp) hstg.2 (by simp)
    have hi0 : i = 0 := by simpa using hile
    subst hi0
    rw [heq]
    rfl
  · rw [hline]
    simp [hstg.2.1, STORAGE_DIGEST_LENGTH]

/-- Witness for C5 at the digest `"a"*61` (the spec's own scenario). -/
theorem missing_blob_empty_ledger_witness :
    digest_offset oneKeyBridge none [0x62, 0x72] (Storage.mk exKey aDigest) =
      some (.ok (0, some (renderLedger [(aDigest, 0)]))) ∧
    renderLedger [(aDigest, 0)] =
      aDigest ++ [0x20, 0x20, 0x20, 0x20, 0x20, 0x30, 0x0A] ∧
    (renderLedger [(aDigest, 0)]).length = 68 :=
  missing_blob_empty_ledger [0x62, 0x72] (Storage.mk exKey aDigest) (by decide)

/-- C6: no write on a hit: for every well-formed blob state containing the
record's digest, `digest_offset` returns the stored offset and performs no
`put` on the connector — observed here by a put-counter that stays
unchanged — so the persisted blob is left byte-for-byte unchanged. -/
theorem no_write_on_hit (blob : Option Bytes) (n : Nat) (entries : List (Bytes × Nat))
    (hstate : LedgerState blob entries) (dom : Bytes) (stg : Storage)
    (hstg : ValidStorage stg) (o : Nat) (hmem : (stg.digest, o) ∈ entries) :
    digest_offset observedBridge (blob, n) dom stg = some (.ok (o, (blob, n))) := by
  obtain ⟨hlines, hsorted, hhex, hbound⟩ := hstate
  have hget : observedBridge.get (blob, n) stg.key = .ok blob := rfl
  have hhit := digest_offset_hit observedBridge (blob, n) dom stg blob entries o hget
    hlines hsorted hhex hstg.2 hmem
  rw [hhit, if_pos (hbound _ hmem)]

/-- Witness for C6: re-reading digest `"a"*61` from its one-line blob with
put-counter 5 returns offset 0 and the counter still 5. -/
theorem no_write_on_hit_witness :
    digest_offset observedBridge (some (renderLedger [(aDigest, 0)]), 5) [0x62, 0x72]
      (Storage.mk exKey aDigest) =
      some (.ok (0, (some (renderLedger [(aDigest, 0)]), 5))) :=
  no_write_on_hit (some (renderLedger [(aDigest, 0)])) 5 [(aDigest, 0)] (by decide)
    [0x62, 0x72] (Storage.mk exKey aDigest) (by decide) 0 (by decide)

/-- C3: sorted-ledger format invariant: every protocol-reachable blob
whose offsets all fit the five-digit field either is still absent or
consists of strictly sorted unique 61-char digests, one 68-byte line each
(digest, space, five-char offset, newline, realized as the flattened list
of newline-terminated lines, hence with a trailing newline), and every
further allocation of a new digest inserts its line at the binary-search
insertion index. -/
theorem sorted_ledger_invariant (s : Option Bytes) (hreach : Reachable s)
    (hfit : (linesOfState s).length ≤ 10 ^ 5) :
    s = none ∨
    ∃ entries : List (Bytes × Nat), entries ≠ [] ∧
      s = some ((entries.map (fun e => entryLine e ++ [0x0A])).flatten) ∧
      (entries.map Prod.fst).Pairwise strLt ∧
      (∀ e ∈ entries, (entryLine e ++ [0x0A]).length = 68) ∧
      (∀ (dom : Bytes) (stg : Storage), ValidStorage stg →
        stg.digest ∉ entries.map Prod.fst →
        ∃ i, binarySearch (entries.map Prod.fst) stg.digest = .error i ∧
          digest_offset oneKeyBridge s dom stg =
            some (.ok (entries.length, some (renderLedger
              (entries.take i ++ (stg.digest, entries.length) :: entries.drop i))))) := by
  obtain ⟨entries, hlines, hsorted, hhex, hdense, hn, hs⟩ := reachable_ledger s hreach
  by_cases hne : entries = []
  · exact Or.inl (hn hne)
  · right
    have hsome := hs hne
    have hlen : entries.length ≤ 10 ^ 5 := by
      have : (linesOfState s).length = entries.length := by rw [hlines]; simp
      omega
    refine ⟨entries, hne, ?_, hsorted, ?_, ?_⟩
    · rw [hsome]
      unfold renderLedger
      rw [joinNl_flatten (entries.map entryLine) (by simpa using hne)]
      rw [List.map_map]
      rfl
    · intro e he
      have hoff : e.2 < entries.length := by
        have h2 : e.2 ∈ entries.map Prod.snd := List.mem_map.mpr ⟨e, he, rfl⟩
        exact List.mem_range.mp (hdense.mem_iff.mp h2)
      have h67 : (entryLine e).length = 67 :=
        formatLine_length_67 e.1 e.2 (hhex e he).1 (by omega)
      simp [h67]
    · intro dom stg hstg hnm
      have hget : oneKeyBridge.get s stg.key = .ok s := rfl
      obtain ⟨i, hfind, hile, _, _, heq⟩ := digest_offset_miss oneKeyBridge s dom stg s
        entries hget hlines hsorted hhex hstg.2 hnm
      refine ⟨i, hfind, ?_⟩
      rw [heq]
      rfl

/-- Witness for C3 at the reachable one-line ledger for digest `"a"*61`. -/
theorem sorted_ledger_invariant_witness :
    some (renderLedger [(aDigest, 0)]) = none ∨
    ∃ entries : List (Bytes × Nat), entries ≠ [] ∧
      some (renderLedger [(aDigest, 0)]) =
        some ((entries.map (fun e => entryLine e ++ [0x0A])).flatten) ∧
      (entries.map Prod.fst).Pairwise strLt ∧
      (∀ e ∈ entries, (entryLine e ++ [0x0A]).length = 68) ∧
      (∀ (dom : Bytes) (stg : Storage), ValidStorage stg →
        stg.digest ∉ entries.map Prod.fst →
        ∃ i, binarySearch (entries.map Prod.fst) stg.digest = .error i ∧
          digest_offset oneKeyBridge (some (renderLedger [(aDigest, 0)])) dom stg =
            some (.ok (entries.length, some (renderLedger
              (entries.take i ++ (stg.digest, entries.length) :: entries.drop i))))) := by
  refine sorted_ledger_invariant (some (renderLedger [(aDigest, 0)])) ?_ (by decide)
  exact Reachable.step none (some (renderLedger [(aDigest, 0)])) [0x62, 0x72]
    (Storage.mk exKey aDigest) 0 Reachable.init (by decide) (by decide)

/-- C7: error propagation and local atomicity: on a well-formed ledger
state, `digest_offset` returns an error exactly when the connector's
`get` fails, or the digest is new and the connector's `put` fails; the
`IoError` is propagated unchanged inside `StorageFailure`.  No local
state survives a failure: retrying with the faults cleared behaves
exactly like a fresh allocation against the last known-good blob. -/
theorem error_propagation (fs : FaultyState) (entries : List (Bytes × Nat))
    (hstate : LedgerState fs.blob entries) (dom : Bytes) (stg : Storage)
    (hstg : ValidStorage stg) :
    (∀ err : Error, digest_offset faultyBridge fs dom stg = some (.error err) ↔
      ((∃ e, fs.getErr = some e ∧ err = Error.StorageFailure e) ∨
       (fs.getErr = none ∧ stg.digest ∉ entries.map Prod.fst ∧
        ∃ e, fs.putErr = some e ∧ err = Error.StorageFailure e))) ∧
    ((∃ e, fs.getErr = some e) ∨ (∃ e, fs.putErr = some e) →
      ∃ off blob2, digest_offset faultyBridge ⟨fs.blob, none, none⟩ dom stg =
          some (.ok (off, ⟨blob2, none, none⟩)) ∧
        digest_offset oneKeyBridge fs.blob dom stg = some (.ok (off, blob2))) := by
  obtain ⟨hlines, hsorted, hhex, hbound⟩ := hstate
  constructor
  · intro err
    cases hg : fs.getErr with
    | some e0 =>
      have hget : faultyBridge.get fs stg.key = .error e0 := by
        show (match fs.getErr with
          | some e => (.error e : Except IoError (Option Bytes))
          | none => .ok fs.blob) = _
        rw [hg]
      rw [digest_offset_get_error faultyBridge fs dom stg e0 hget]
      constructor
      · intro h
        have h2 : Error.StorageFailure e0 = err := by
          cases h
          rfl
        exact Or.inl ⟨e0, rfl, h2.symm⟩
      · rintro (⟨e, he, rfl⟩ | ⟨hnone, _, _⟩)
        · cases he
          rfl
        · cases hnone
    | none =>
      have hget : faultyBridge.get fs stg.key = .ok fs.blob := by
        show (match fs.getErr with
          | some e => (.error e : Except IoError (Option Bytes))
          | none => .ok fs.blob) = _
        rw [hg]
      by_cases hmem : stg.digest ∈ entries.map Prod.fst
      · obtain ⟨e, he, hefst⟩ := List.mem_map.mp hmem
        have heq2 : e = (stg.digest, e.2) := by
          cases e
          simp at hefst
          rw [hefst]
        have hhit := digest_offset_hit faultyBridge fs dom stg fs.blob entries e.2 hget
          hlines hsorted hhex hstg.2 (heq2 ▸ he)
        rw [hhit, if_pos (hbound _ (heq2 ▸ he))]
        constructor
        · intro h
          simp at h
        · rintro (⟨e2, he2, _⟩ | ⟨_, hnm, _⟩)
          · cases he2
          · exact absurd hmem hnm
      · obtain ⟨i, hfind, hile, hlo, hhi, heq⟩ := digest_offset_miss faultyBridge fs dom stg
          fs.blob entries hget hlines hsorted hhex hstg.2 hmem
        rw [heq]
        cases hp : fs.putErr with
        | some e1 =>
          have hput : faultyBridge.put fs stg.key (renderLedger
              (entries.take i ++ (stg.digest, entries.length) :: entries.drop i))
              = .error e1 := by
            show (match fs.putErr with
              | some e => (.error e : Except IoError FaultyState)
              | none => .ok ⟨some (renderLedger
                  (entries.take i ++ (stg.digest, entries.length) :: entries.drop i)),
                  fs.getErr, fs.putErr⟩) = _
            rw [hp]
          rw [hput]
          constructor
          · intro h
            have h2 : Error.StorageFailure e1 = err := by
              cases h
              rfl
            exact Or.inr ⟨rfl, hmem, e1, rfl, h2.symm⟩
          · rintro (⟨e2, he2, rfl⟩ | ⟨_, _, e2, he2, rfl⟩)
            · cases he2
            · cases he2
              rfl
        | none =>
          have hput : faultyBridge.put fs stg.key (renderLedger
              (entries.take i ++ (stg.digest, entries.length) :: entries.drop i))
              = .ok ⟨some (renderLedger
                (entries.take i ++ (stg.digest, entries.length) :: entries.drop i)),
                fs.getErr, fs.putErr⟩ := by
            show (match fs.putErr with
              | some e => (.error e : Except IoError FaultyState)
              | none => .ok ⟨some (renderLedger
                  (entries.take i ++ (stg.digest, entries.length) :: entries.drop i)),
                  fs.getErr, fs.putErr⟩) = _
            rw [hp]
          rw [hput]
          constructor
          · intro h
            simp at h
          · rintro (⟨e2, he2, _⟩ | ⟨_, _, e2, he2, _⟩)
            · cases he2
            · cases he2
  · intro _
    have hgetc : faultyBridge.get ⟨fs.blob, none, none⟩ stg.key = .ok fs.blob := rfl
    have hget1 : oneKeyBridge.get fs.blob stg.key = .ok fs.blob := rfl
    by_cases hmem : stg.digest ∈ entries.map Prod.fst
    · obtain ⟨e, he, hefst⟩ := List.mem_map.mp hmem
      have heq2 : e = (stg.digest, e.2) := by
        cases e
        simp at hefst
        rw [hefst]
      have h1 := digest_offset_hit faultyBridge ⟨fs.blob, none, none⟩ dom stg fs.blob
        entries e.2 hgetc hlines hsorted hhex hstg.2 (heq2 ▸ he)
      have h2 := digest_offset_hit oneKeyBridge fs.blob dom stg fs.blob
        entries e.2 hget1 hlines hsorted hhex hstg.2 (heq2 ▸ he)
      refine ⟨e.2, fs.blob, ?_, ?_⟩
      · rw [h1, if_pos (hbound _ (heq2 ▸ he))]
      · rw [h2, if_pos (hbound _ (heq2 ▸ he))]
    · obtain ⟨i, hfind, _, _, _, heq1⟩ := digest_offset_miss faultyBridge ⟨fs.blob, none, none⟩
        dom stg fs.blob entries hgetc hlines hsorted hhex hstg.2 hmem
      obtain ⟨i2, hfind2, _, _, _, heq2⟩ := digest_offset_miss oneKeyBridge fs.blob
        dom stg fs.blob entries hget1 hlines hsorted hhex hstg.2 hmem
      rw [hfind] at hfind2
      injection hfind2 with hii
      rw [← hii] at heq2
      refine ⟨entries.length, some (renderLedger
        (entries.take i ++ (stg.digest, entries.length) :: entries.drop i)), ?_, ?_⟩
      · rw [heq1]
        rfl
      · rw [heq2]
        rfl

/-- Witness for C7: an injected `get` failure on the empty ledger is
returned as the same `StorageFailure`, and the retry with the fault
cleared allocates offset 0 afresh. -/
theorem error_propagation_witness :
    (digest_offset faultyBridge ⟨none, some ⟨[0x62]⟩, none⟩ [0x62, 0x72]
        (Storage.mk exKey aDigest) =
      some (.error (Error.StorageFailure ⟨[0x62]⟩))) ∧
    ∃ off blob2, digest_offset faultyBridge ⟨none, none, none⟩ [0x62, 0x72]
        (Storage.mk exKey aDigest) = some (.ok (off, ⟨blob2, none, none⟩)) ∧
      digest_offset oneKeyBridge none [0x62, 0x72] (Storage.mk exKey aDigest) =
        some (.ok (off, blob2)) := by
  have h := error_propagation ⟨none, some ⟨[0x62]⟩, none⟩ [] (by decide) [0x62, 0x72]
    (Storage.mk exKey aDigest) (by decide)
  constructor
  · exact (h.1 (Error.StorageFailure ⟨[0x62]⟩)).mpr (Or.inl ⟨⟨[0x62]⟩, rfl, rfl⟩)
  · exact h.2 (Or.inl ⟨⟨[0x62]⟩, rfl⟩)

/-- C4 is false on the code: `digest_offset` passes `storage.key` to the
connector without any domain qualification (the probe connector reports
the fetched key: it is `"aaa"`, not `"br/aaa"`), and two distinct domains
(`"br"`, `"bt"`) sharing one connector instance do read and write the
same ledger blob — the second domain's first digest receives offset 1,
continuing the first domain's ledger, instead of offset 0. -/
theorem domain_qualified_addressing_counterexample :
    digest_offset keyProbeBridge () [0x62, 0x72] (Storage.mk exKey aDigest) =
      some (.error (Error.StorageFailure ⟨exKey⟩)) ∧
    digest_offset mockBridge [] [0x62, 0x72] (Storage.mk exKey aDigest) =
      some (.ok (0, [(exKey, renderLedger [(aDigest, 0)])])) ∧
    digest_offset mockBridge [(exKey, renderLedger [(aDigest, 0)])] [0x62, 0x74]
      (Storage.mk exKey bDigest) =
      some (.ok (1, [(exKey, renderLedger [(aDigest, 0), (bDigest, 1)]),
        (exKey, renderLedger [(aDigest, 0)])])) := by
  refine ⟨rfl, by decide, by decide⟩

/-- C4 amended: `digest_offset` addresses the ledger blob by the 3-hex-char
`storage.key` alone and ignores its domain argument entirely; domain
qualification (`"<domain>/<key>"`) is the connector implementation's
responsibility, as in the repository's example HTTP bridge, so only
domain-distinct connector instances keep ledgers separate. -/
theorem key_only_addressing {σ : Type} (b : ConnectionBridge σ) (s : σ)
    (dom1 dom2 : Bytes) (stg : Storage) :
    digest_offset b s dom1 stg = digest_offset b s dom2 stg ∧
    ∀ dom : Bytes, digest_offset keyProbeBridge () dom stg =
      some (.error (Error.StorageFailure ⟨stg.key⟩)) :=
  ⟨rfl, fun _ => rfl⟩

/-! ### First-seen order bookkeeping (for density) -/

theorem seenFold_append (seen ds1 ds2 : List Bytes) :
    seenFold seen (ds1 ++ ds2) = seenFold (seenFold seen ds1) ds2 :=
  List.foldl_append ..

theorem seenFold_cons (seen : List Bytes) (d : Bytes) (ds : List Bytes) :
    seenFold seen (d :: ds) = seenFold (if d ∈ seen then seen else seen ++ [d]) ds := rfl

theorem mem_seenFold (x : Bytes) (ds : List Bytes) :
    ∀ seen, x ∈ seenFold seen ds ↔ x ∈ seen ∨ x ∈ ds := by
  induction ds with
  | nil => intro seen; simp [seenFold]
  | cons d ds ih =>
    intro seen
    rw [seenFold_cons]
    by_cases hd : d ∈ seen
    · rw [if_pos hd, ih]
      constructor
      · rintro (h | h)
        · exact Or.inl h
        · exact Or.inr (List.mem_cons_of_mem d h)
      · rintro (h | h)
        · exact Or.inl h
        · rcases List.mem_cons.mp h with rfl | h2
          · exact Or.inl hd
          · exact Or.inr h2
    · rw [if_neg hd, ih]
      constructor
      · rintro (h | h)
        · rcases List.mem_append.mp h with h2 | h2
          · exact Or.inl h2
          · exact Or.inr (List.mem_cons.mpr (Or.inl (List.mem_singleton.mp h2)))
        · exact Or.inr (List.mem_cons_of_mem d h)
      · rintro (h | h)
        · exact Or.inl (List.mem_append.mpr (Or.inl h))
        · rcases List.mem_cons.mp h with rfl | h2
          · exact Or.inl (List.mem_append.mpr (Or.inr (List.mem_singleton.mpr rfl)))
          · exact Or.inr h2

theorem seenFold_nodup (ds : List Bytes) :
    ∀ seen, seen.Nodup → (seenFold seen ds).Nodup := by
  induction ds with
  | nil => intro seen h; exact h
  | cons d ds ih =>
    intro seen h
    rw [seenFold_cons]
    by_cases hd : d ∈ seen
    · rw [if_pos hd]
      exact ih seen h
    · rw [if_neg hd]
      refine ih _ ?_
      simp [List.nodup_append, h, hd]

theorem seenFold_extend (ds : List Bytes) :
    ∀ seen, ∃ t, seenFold seen ds = seen ++ t := by
  induction ds with
  | nil => intro seen; exact ⟨[], by simp [seenFold]⟩
  | cons d ds ih =>
    intro seen
    rw [seenFold_cons]
    by_cases hd : d ∈ seen
    · rw [if_pos hd]
      exact ih seen
    · rw [if_neg hd]
      obtain ⟨t, ht⟩ := ih (seen ++ [d])
      exact ⟨[d] ++ t, by rw [ht, List.append_assoc]⟩

theorem idxOfB_lt_length (d : Bytes) (l : List Bytes) (h : d ∈ l) : idxOfB d l < l.length := by
  induction l with
  | nil => simp at h
  | cons x xs ih =>
    unfold idxOfB
    by_cases hx : x = d
    · rw [if_pos hx]
      simp
    · rw [if_neg hx]
      rcases List.mem_cons.mp h with rfl | h2
      · exact absurd rfl hx
      · have := ih h2
        simp
        omega

theorem idxOfB_getD (d : Bytes) (l : List Bytes) (h : d ∈ l) :
    l.getD (idxOfB d l) [] = d := by
  induction l with
  | nil => simp at h
  | cons x xs ih =>
    by_cases hx : x = d
    · simp [idxOfB, hx]
    · rcases List.mem_cons.mp h with rfl | h2
      · exact absurd rfl hx
      · simp only [idxOfB, hx, if_false]
        show xs.getD (idxOfB d xs) [] = d
        exact ih h2

theorem idxOfB_append_self (d : Bytes) (l : List Bytes) (h : d ∉ l) :
    idxOfB d (l ++ [d]) = l.length := by
  induction l with
  | nil => simp [idxOfB]
  | cons x xs ih =>
    have hx : x ≠ d := fun he => h (he ▸ List.mem_cons_self x xs)
    rw [List.cons_append]
    unfold idxOfB
    rw [if_neg hx, ih (fun h2 => h (List.mem_cons_of_mem x h2))]
    rfl

theorem idxOfB_first (d : Bytes) (l : List Bytes) :
    ∀ j, j < idxOfB d l → ∀ hj : j < l.length, l[j] ≠ d := by
  induction l with
  | nil => intro j hj hj2; simp at hj2
  | cons x xs ih =>
    intro j hj hj2
    by_cases hx : x = d
    · simp [idxOfB, hx] at hj
    · simp only [idxOfB, hx, if_false] at hj
      cases j with
      | zero => simpa using hx
      | succ j =>
        rw [List.getElem_cons_succ]
        exact ih j (by omega) (by simpa using hj2)

theorem runAllocs_spec (dom key : Bytes) (ds : List Bytes) :
    ∀ (seen : List Bytes) (s : Option Bytes) (entries : List (Bytes × Nat)),
      (∀ d ∈ ds, ValidHex STORAGE_DIGEST_LENGTH d) →
      (∀ d ∈ seen, ValidHex STORAGE_DIGEST_LENGTH d) →
      seen.Nodup →
      seen.length + ds.length < USIZE_BOUND →
      linesOfState s = entries.map entryLine →
      (entries.map Prod.fst).Pairwise strLt →
      (∀ e ∈ entries, ValidHex STORAGE_DIGEST_LENGTH e.1) →
      entries.length = seen.length →
      (∀ p : Bytes × Nat, p ∈ entries ↔ ∃ h : p.2 < seen.length, seen[p.2] = p.1) →
      ∃ offs s2, runAllocs dom key s ds = some (offs, s2) ∧
        offs.length = ds.length ∧
        ∀ i, i < ds.length →
          offs.getD i 0 = idxOfB (ds.getD i []) (seenFold seen (ds.take (i + 1))) := by
  induction ds with
  | nil =>
    intro seen s entries _ _ _ _ _ _ _ _ _
    exact ⟨[], s, rfl, rfl, fun i hi => absurd hi (by simp)⟩
  | cons d ds ih =>
    intro seen s entries hvd hvseen hnd hsize hlines hsorted hhex hlen hmemiff
    have hget : oneKeyBridge.get s (Storage.mk key d).key = .ok s := rfl
    have hsize2 : seen.length + ds.length + 1 < USIZE_BOUND := by
      simp only [List.length_cons] at hsize
      omega
    have hvd0 : ValidHex STORAGE_DIGEST_LENGTH d := hvd d (List.mem_cons_self d ds)
    by_cases hd : d ∈ seen
    · have holt : idxOfB d seen < seen.length := idxOfB_lt_length d seen hd
      have hmem : (d, idxOfB d seen) ∈ entries := by
        rw [hmemiff (d, idxOfB d seen)]
        refine ⟨holt, ?_⟩
        rw [← getD_eq_getElem seen _ holt]
        exact idxOfB_getD d seen hd
      have hhit := digest_offset_hit oneKeyBridge s dom (Storage.mk key d) s entries
        (idxOfB d seen) hget hlines hsorted hhex hvd0 hmem
      have hcall : digest_offset oneKeyBridge s dom (Storage.mk key d) =
          some (.ok (idxOfB d seen, s)) := by
        rw [hhit, if_pos (by omega)]
      obtain ⟨offs, s2, hrun, hlen2, hform⟩ := ih seen s entries
        (fun x hx => hvd x (List.mem_cons_of_mem _ hx)) hvseen hnd (by omega)
        hlines hsorted hhex hlen hmemiff
      refine ⟨idxOfB d seen :: offs, s2, ?_, by simp [hlen2], ?_⟩
      · unfold runAllocs
        rw [hcall]
        show (runAllocs dom key s ds).map (fun r => (idxOfB d seen :: r.1, r.2)) = _
        rw [hrun]
        rfl
      · intro i hi
        cases i with
        | zero =>
          rw [show (d :: ds).take 1 = [d] from rfl]
          rw [show seenFold seen [d] = if d ∈ seen then seen else seen ++ [d] from rfl]
          rw [if_pos hd]
          rfl
        | succ j =>
          have hj : j < ds.length := by
            simp only [List.length_cons] at hi
            omega
          have hf := hform j hj
          rw [show (idxOfB d seen :: offs).getD (j + 1) 0 = offs.getD j 0 from rfl]
          rw [show (d :: ds).getD (j + 1) [] = ds.getD j [] from rfl]
          rw [show (d :: ds).take (j + 1 + 1) = d :: ds.take (j + 1) from rfl]
          rw [seenFold_cons, if_pos hd]
          exact hf
    · have hnm : d ∉ entries.map Prod.fst := by
        intro hmem2
        obtain ⟨e, he, hefst⟩ := List.mem_map.mp hmem2
        obtain ⟨h2, he2⟩ := (hmemiff e).mp he
        exact hd (by rw [← hefst, ← he2]; exact List.getElem_mem h2)
      obtain ⟨i, hfind, hile, hlo, hhi, heq⟩ := digest_offset_miss oneKeyBridge s dom
        (Storage.mk key d) s entries hget hlines hsorted hhex hvd0 hnm
      have hcall : digest_offset oneKeyBridge s dom (Storage.mk key d) =
          some (.ok (entries.length, some (renderLedger
            (entries.take i ++ (d, entries.length) :: entries.drop i)))) := by
        rw [heq]
        rfl
      have hhexN : ∀ e ∈ entries.take i ++ (d, entries.length) :: entries.drop i,
          ValidHex STORAGE_DIGEST_LENGTH e.1 := by
        intro e he
        rcases (insertAt_mem entries i _ e).mp he with rfl | he2
        · exact hvd0
        · exact hhex e he2
      have hlinesN : linesOfState (some (renderLedger
          (entries.take i ++ (d, entries.length) :: entries.drop i)))
          = (entries.take i ++ (d, entries.length) :: entries.drop i).map entryLine := by
        show rustLines (renderLedger _) = _
        exact rustLines_render _ (by simp) hhexN
      have hsortedN := insert_sorted entries d i entries.length hsorted hlo hhi hile
      have hlenN : (entries.take i ++ (d, entries.length) :: entries.drop i).length
          = (seen ++ [d]).length := by
        rw [insertAt_length entries i _ hile]
        simp [hlen]
      have hmemiffN : ∀ p : Bytes × Nat,
          p ∈ entries.take i ++ (d, entries.length) :: entries.drop i ↔
          ∃ h : p.2 < (seen ++ [d]).length, (seen ++ [d])[p.2] = p.1 := by
        intro p
        rw [insertAt_mem]
        constructor
        · rintro (rfl | hp)
          · refine ⟨by simp [hlen], ?_⟩
            simp [hlen]
          · obtain ⟨h2, he2⟩ := (hmemiff p).mp hp
            refine ⟨by simp; omega, ?_⟩
            rw [List.getElem_append_left h2]
            exact he2
        · rintro ⟨h2, he2⟩
          by_cases hp2 : p.2 < seen.length
          · right
            rw [hmemiff p]
            refine ⟨hp2, ?_⟩
            rw [List.getElem_append_left hp2] at he2
            exact he2
          · left
            have hp2e : p.2 = seen.length := by
              simp only [List.length_append, List.length_singleton] at h2
              omega
            have hp1 : p.1 = d := by
              rw [← he2]
              rw [← getD_eq_getElem (seen ++ [d]) p.2 h2]
              rw [hp2e]
              rw [getD_eq_getElem (seen ++ [d]) seen.length (by simp)]
              simp
            cases p with
            | mk p1 p2 =>
              simp only at hp1 hp2e
              rw [hp1, hp2e, hlen]
      obtain ⟨offs, s2, hrun, hlen2, hform⟩ := ih (seen ++ [d])
        (some (renderLedger (entries.take i ++ (d, entries.length) :: entries.drop i)))
        (entries.take i ++ (d, entries.length) :: entries.drop i)
        (fun x hx => hvd x (List.mem_cons_of_mem _ hx))
        (by
          intro x hx
          rcases List.mem_append.mp hx with h | h
          · exact hvseen x h
          · rw [List.mem_singleton.mp h]
            exact hvd0)
        (by simp [List.nodup_append, hnd, hd])
        (by simp only [List.length_append, List.length_singleton]; omega)
        hlinesN hsortedN hhexN hlenN hmemiffN
      refine ⟨entries.length :: offs, s2, ?_, by simp [hlen2], ?_⟩
      · unfold runAllocs
        rw [hcall]
        show (runAllocs dom key (some (renderLedger
          (entries.take i ++ (d, entries.length) :: entries.drop i))) ds).map
          (fun r => (entries.length :: r.1, r.2)) = _
        rw [hrun]
        rfl
      · intro i2 hi2
        cases i2 with
        | zero =>
          rw [show (d :: ds).take 1 = [d] from rfl]
          rw [show seenFold seen [d] = if d ∈ seen then seen else seen ++ [d] from rfl]
          rw [if_neg hd]
          rw [show (d :: ds).getD 0 [] = d from rfl]
          rw [idxOfB_append_self d seen hd]
          show entries.length = seen.length
          exact hlen
        | succ j =>
          have hj : j < ds.length := by
            simp only [List.length_cons] at hi2
            omega
          have hf := hform j hj
          rw [show (entries.length :: offs).getD (j + 1) 0 = offs.getD j 0 from rfl]
          rw [show (d :: ds).getD (j + 1) [] = ds.getD j [] from rfl]
          rw [show (d :: ds).take (j + 1 + 1) = d :: ds.take (j + 1) from rfl]
          rw [seenFold_cons, if_neg hd]
          exact hf

theorem idxOfB_of_getElem (d : Bytes) (l : List Bytes) (hnd : l.Nodup) (k : Nat)
    (hk : k < l.length) (he : l[k] = d) : idxOfB d l = k := by
  have hmem : d ∈ l := he ▸ List.getElem_mem hk
  have h1 : idxOfB d l < l.length := idxOfB_lt_length d l hmem
  have h2 : l.getD (idxOfB d l) [] = d := idxOfB_getD d l hmem
  rw [getD_eq_getElem l _ h1] at h2
  by_contra hne
  have h3 : l.get ⟨idxOfB d l, h1⟩ = l.get ⟨k, hk⟩ := by
    show l[idxOfB d l] = l[k]
    rw [h2, he]
  have h4 := hnd.get_inj_iff.mp h3
  simp at h4
  exact hne h4

theorem getD_append_length (A : List Bytes) (x : Bytes) (t : List Bytes) :
    (A ++ x :: t).getD A.length [] = x := by
  induction A with
  | nil => rfl
  | cons a A ih =>
    show (A ++ x :: t).getD A.length [] = x
    exact ih

theorem take_succ_getElem (l : List Bytes) (i : Nat) (h : i < l.length) :
    l.take (i + 1) = l.take i ++ [l[i]] := by
  rw [List.take_succ, List.getElem?_eq_getElem h]
  rfl

theorem firstSeen_take_prefix (ds : List Bytes) (k : Nat) :
    ∃ t, firstSeen ds = seenFold [] (ds.take k) ++ t := by
  obtain ⟨t, ht⟩ := seenFold_extend (ds.drop k) (seenFold [] (ds.take k))
  refine ⟨t, ?_⟩
  unfold firstSeen
  conv_lhs => rw [← List.take_append_drop k ds]
  rw [seenFold_append, ht]

/-- C2: density and first-seen ordering: starting from the empty ledger,
any sequence of allocations of valid digests under one `(domain, key)`
succeeds; the set of offsets ever returned is exactly `{0, …, m-1}` where
`m` is the number of distinct digests allocated, and the Nth newly-seen
digest receives the current line count — the number of distinct digests
seen before it — as its offset, regardless of where it sorts.  The length
bound encodes that a Rust `Vec` cannot exceed `usize::MAX` elements. -/
theorem density_first_seen (dom key : Bytes) (ds : List Bytes)
    (hvalid : ∀ d ∈ ds, ValidHex STORAGE_DIGEST_LENGTH d)
    (hsize : ds.length < USIZE_BOUND) :
    ∃ offs s2, runAllocs dom key none ds = some (offs, s2) ∧
      offs.length = ds.length ∧
      (∀ v : Nat, v ∈ offs ↔ v < (firstSeen ds).length) ∧
      ∀ i, i < ds.length → ds.getD i [] ∉ ds.take i →
        offs.getD i 0 = (firstSeen (ds.take i)).length := by
  obtain ⟨offs, s2, hrun, hlen, hform⟩ := runAllocs_spec dom key ds [] none []
    hvalid (by simp) List.nodup_nil (by simpa using hsize) rfl List.Pairwise.nil
    (by simp) rfl
    (by
      intro p
      constructor
      · intro h
        simp at h
      · rintro ⟨h, _⟩
        simp at h)
  have hnew : ∀ i, i < ds.length → ds.getD i [] ∉ ds.take i →
      offs.getD i 0 = (firstSeen (ds.take i)).length := by
    intro i hi hnotin
    rw [hform i hi]
    have hgd : ds.getD i [] = ds[i] := getD_eq_getElem ds i hi
    rw [hgd] at hnotin ⊢
    have hnotF : ds[i] ∉ seenFold [] (ds.take i) := by
      intro hmem
      rcases (mem_seenFold _ _ _).mp hmem with h | h
      · simp at h
      · exact hnotin h
    rw [take_succ_getElem ds i hi, seenFold_append]
    rw [show seenFold (seenFold [] (ds.take i)) [ds[i]] =
      if ds[i] ∈ seenFold [] (ds.take i) then seenFold [] (ds.take i)
      else seenFold [] (ds.take i) ++ [ds[i]] from rfl]
    rw [if_neg hnotF, idxOfB_append_self _ _ hnotF]
    rfl
  refine ⟨offs, s2, hrun, hlen, ?_, hnew⟩
  intro v
  constructor
  · intro hv
    obtain ⟨i, hi, hie⟩ := List.mem_iff_getElem.mp hv
    have hi2 : i < ds.length := by
      rw [hlen] at hi
      exact hi
    have hvi : offs.getD i 0 = v := by
      rw [getD0_eq_getElem offs i hi, hie]
    have hgd : ds.getD i [] = ds[i] := getD_eq_getElem ds i hi2
    have hmemi : ds[i] ∈ seenFold [] (ds.take (i + 1)) := by
      apply (mem_seenFold _ _ _).mpr
      right
      rw [take_succ_getElem ds i hi2]
      exact List.mem_append_right _ (List.mem_singleton.mpr rfl)
    have hlt := idxOfB_lt_length _ _ hmemi
    obtain ⟨t, ht⟩ := firstSeen_take_prefix ds (i + 1)
    have hle : (seenFold [] (ds.take (i + 1))).length ≤ (firstSeen ds).length := by
      rw [ht]
      simp
    have := hform i hi2
    rw [hgd] at this
    omega
  · intro hv
    have hFnd : (firstSeen ds).Nodup := seenFold_nodup ds [] List.nodup_nil
    set dd := (firstSeen ds).get ⟨v, hv⟩ with hdd
    have hdmem : dd ∈ ds := by
      have h1 : dd ∈ firstSeen ds := by
        rw [hdd]
        exact List.get_mem _ _ hv
      rcases (mem_seenFold _ _ _).mp h1 with h | h
      · simp at h
      · exact h
    have hilt : idxOfB dd ds < ds.length := idxOfB_lt_length _ ds hdmem
    have hdi : ds.getD (idxOfB dd ds) [] = dd := idxOfB_getD _ ds hdmem
    have hdieq : ds[idxOfB dd ds] = dd := by
      rw [← getD_eq_getElem ds _ hilt]
      exact hdi
    have hnotin0 : dd ∉ ds.take (idxOfB dd ds) := by
      intro hmem2
      obtain ⟨j, hj, hje⟩ := List.mem_iff_getElem.mp hmem2
      rw [List.length_take] at hj
      have hjlt : j < idxOfB dd ds := by omega
      have hjlen : j < ds.length := by omega
      have h5 : ds[j] = dd := by
        rw [← hje]
        exact (List.getElem_take ds).symm
      exact idxOfB_first _ ds j hjlt hjlen h5
    have hnotin : ds.getD (idxOfB dd ds) [] ∉ ds.take (idxOfB dd ds) := by
      rw [hdi]
      exact hnotin0
    have hoffs := hnew _ hilt hnotin
    have hnotF : dd ∉ seenFold [] (ds.take (idxOfB dd ds)) := by
      intro hmem
      rcases (mem_seenFold _ _ _).mp hmem with h | h
      · simp at h
      · exact hnotin0 h
    have htake : seenFold [] (ds.take (idxOfB dd ds + 1)) =
        seenFold [] (ds.take (idxOfB dd ds)) ++ [dd] := by
      rw [take_succ_getElem ds _ hilt, seenFold_append, hdieq]
      rw [show seenFold (seenFold [] (ds.take (idxOfB dd ds))) [dd] =
        if dd ∈ seenFold [] (ds.take (idxOfB dd ds)) then
          seenFold [] (ds.take (idxOfB dd ds))
        else seenFold [] (ds.take (idxOfB dd ds)) ++ [dd] from rfl]
      rw [if_neg hnotF]
    obtain ⟨t2, ht2⟩ := firstSeen_take_prefix ds (idxOfB dd ds + 1)
    rw [htake] at ht2
    have hvlen : (seenFold [] (ds.take (idxOfB dd ds))).length < (firstSeen ds).length := by
      rw [ht2]
      simp
    have hgd2 : (firstSeen ds).getD ((seenFold [] (ds.take (idxOfB dd ds))).length) [] = dd := by
      rw [ht2, List.append_assoc]
      exact getD_append_length _ _ _
    have hgetF : (firstSeen ds).get ⟨(seenFold [] (ds.take (idxOfB dd ds))).length, hvlen⟩
        = (firstSeen ds).get ⟨v, hv⟩ := by
      rw [← hdd]
      rw [show ((firstSeen ds).get ⟨(seenFold [] (ds.take (idxOfB dd ds))).length, hvlen⟩)
        = (firstSeen ds).getD ((seenFold [] (ds.take (idxOfB dd ds))).length) [] from by
          rw [List.get_eq_getElem, getD_eq_getElem _ _ hvlen]]
      exact hgd2
    have hveq := hFnd.get_inj_iff.mp hgetF
    have hveq2 : (seenFold [] (ds.take (idxOfB dd ds))).length = v := by
      simpa using hveq
    have hioff : idxOfB dd ds < offs.length := by
      rw [hlen]
      exact hilt
    have hfin : offs[idxOfB dd ds] = v := by
      rw [← getD0_eq_getElem offs _ hioff, hoffs]
      exact hveq2
    rw [← hfin]
    exact List.getElem_mem hioff

/-- Witness for C2 at the three-digest scenario (digests `"a"*61`,
`"b"*61`, `"a"*61` again): offsets [0, 1, 0], set {0, 1}. -/
theorem density_first_seen_witness :
    ∃ offs s2, runAllocs [0x62, 0x72] exKey none [aDigest, bDigest, aDigest] =
        some (offs, s2) ∧
      offs.length = 3 ∧
      (∀ v : Nat, v ∈ offs ↔ v < (firstSeen [aDigest, bDigest, aDigest]).length) ∧
      ∀ i, i < 3 → [aDigest, bDigest, aDigest].getD i [] ∉ [aDigest, bDigest, aDigest].take i →
        offs.getD i 0 = (firstSeen ([aDigest, bDigest, aDigest].take i)).length :=
  density_first_seen [0x62, 0x72] exKey [aDigest, bDigest, aDigest] (by decide) (by decide)

theorem mapOpt_isSome_len {α β : Type} (f : α → Option β) (l : List α)
    (h : ∀ a ∈ l, (f a).isSome = true) :
    ∃ bs, mapOpt f l = some bs ∧ bs.length = l.length := by
  induction l with
  | nil => exact ⟨[], rfl, rfl⟩
  | cons a as ih =>
    obtain ⟨bs, hbs, hblen⟩ := ih (fun x hx => h x (List.mem_cons_of_mem a hx))
    obtain ⟨b, hb⟩ := Option.isSome_iff_exists.mp (h a (List.mem_cons_self a as))
    refine ⟨b :: bs, ?_, by simp [hblen]⟩
    unfold mapOpt
    rw [hb, hbs]

theorem oneKey_no_error (s : Option Bytes) (dom : Bytes) (stg : Storage) (err : Error) :
    digest_offset oneKeyBridge s dom stg ≠ some (.error err) := by
  intro h
  rw [digest_offset_eq_core oneKeyBridge s dom stg s rfl] at h
  unfold digest_offset_core at h
  split at h
  · cases h
  · unfold afterSearch at h
    split at h
    · unfold hitPath at h
      split at h
      · cases h
      · split at h
        · cases h
        · split at h
          · cases h
          · cases h
    · unfold missPath at h
      split at h
      · cases h
      · cases h

/-- C10 as stated is false: the blob whose single line is the digest
`"a"*61`, a space, and the numeral `2^64` (one past `usize::MAX`)
satisfies the claimed line well-formedness — 82 bytes long, with the
bytes after the digest-plus-space trimming to a decimal numeral — yet
`digest_offset` panics (`unwrap` on the failed overflow-checked parse),
modelled as `none`. -/
theorem ledger_parse_totality_counterexample :
    (∀ line ∈ rustLines overflowBlob, ClaimWFLine line) ∧
    digest_offset oneKeyBridge (some overflowBlob) [0x62, 0x72]
      (Storage.mk exKey aDigest) = none := by
  constructor
  · decide
  · decide

/-- C10 amended: the slicing and parsing partial operations never panic
when every fetched line moreover has char boundaries at positions 61 and
62 and its offset numeral fits `usize`; and with an infallible connector
`digest_offset` never returns an error for any blob whatsoever — a
malformed blob can only abort (panic) or succeed, it is never converted
into a `StorageFailure` or `InvalidEncoding` error. -/
theorem ledger_parse_totality (blob : Bytes) (dom : Bytes) (stg : Storage)
    (hstg : ValidStorage stg)
    (hwf : ∀ line ∈ rustLines blob, AmendedWFLine line) :
    digest_offset oneKeyBridge (some blob) dom stg ≠ none ∧
    ∀ (blob2 : Option Bytes) (err : Error),
      digest_offset oneKeyBridge blob2 dom stg ≠ some (.error err) := by
  refine ⟨?_, fun blob2 err => oneKey_no_error blob2 dom stg err⟩
  have hget : oneKeyBridge.get (some blob) stg.key = .ok (some blob) := rfl
  rw [digest_offset_eq_core oneKeyBridge (some blob) dom stg (some blob) hget]
  show digest_offset_core _ _ _ (rustLines blob) ≠ none
  have hslice : ∀ line ∈ rustLines blob,
      (sliceTo line stg.digest.length).isSome = true := by
    intro line hl
    unfold sliceTo
    rw [hstg.2.1]
    rw [if_pos (show isCharBoundary line STORAGE_DIGEST_LENGTH = true from (hwf line hl).2.1)]
    rfl
  obtain ⟨sl, hsl, hsllen⟩ := mapOpt_isSome_len _ (rustLines blob) hslice
  rw [core_searchLines _ _ _ _ sl hsl]
  have hb := binarySearch_bounds sl stg.digest
  cases hbs : binarySearch sl stg.digest with
  | ok i =>
    rw [afterSearch_ok _ _ _ _ _ i hbs]
    have hb2 : i < sl.length := by rw [hbs] at hb; exact hb
    have hlin : i < (rustLines blob).length := by omega
    have hwfi := hwf _ (List.getElem_mem hlin)
    have hline2 : (rustLines blob)[i]? = some ((rustLines blob)[i]) :=
      List.getElem?_eq_getElem hlin
    have hslice2 : sliceFrom ((rustLines blob)[i]) (stg.digest.length + 1) =
        some (((rustLines blob)[i]).drop 62) := by
      unfold sliceFrom
      rw [hstg.2.1]
      rw [if_pos (show isCharBoundary ((rustLines blob)[i]) (STORAGE_DIGEST_LENGTH + 1) = true
        from hwfi.2.2.1)]
      rfl
    rw [hitPath_parse (some blob) stg.digest (rustLines blob) i _ _ hline2 hslice2]
    rw [parseUsize_digits _ hwfi.1.2.1 hwfi.1.2.2, if_pos hwfi.2.2.2]
    simp
  | error i =>
    rw [afterSearch_err _ _ _ _ _ i hbs]
    have hb2 : i ≤ sl.length := by rw [hbs] at hb; exact hb
    have hile : i ≤ (rustLines blob).length := by omega
    rw [missPath_put _ _ _ i _ (by
      unfold insertAtChecked
      rw [if_pos hile])]
    show some _ ≠ none
    simp

/-- Witness for the amended C10 at the well-formed one-line ledger of
digest `"a"*61`. -/
theorem ledger_parse_totality_witness :
    digest_offset oneKeyBridge (some (renderLedger [(aDigest, 0)])) [0x62, 0x72]
      (Storage.mk exKey bDigest) ≠ none ∧
    ∀ (blob2 : Option Bytes) (err : Error),
      digest_offset oneKeyBridge blob2 [0x62, 0x72] (Storage.mk exKey bDigest) ≠
        some (.error err) :=
  ledger_parse_totality (renderLedger [(aDigest, 0)]) [0x62, 0x72]
    (Storage.mk exKey bDigest) (by decide) (by decide)

/-- Witness for C9 at digest `"a"*61` and offset 42. -/
theorem ledger_line_roundtrip_witness :
    sliceTo (formatLine aDigest 42) STORAGE_DIGEST_LENGTH = some aDigest ∧
    (sliceFrom (formatLine aDigest 42) (STORAGE_DIGEST_LENGTH + 1)).bind
      (fun rest => parseUsize (trimBytes rest)) = some 42 ∧
    (42 < 10 ^ 5 → (formatLine aDigest 42).length + 1 = 68) :=
  ledger_line_roundtrip aDigest 42 (by decide) (by decide)

end Perfume
